import Mathlib

/-!
Verification of the per-room event cache (`RoomEvents` in
`crates/matrix-sdk/src/event_cache/room/events.rs`) against its
specification.

The `RoomEvents` wrapper itself is embedded directly from the source file.
Its collaborators — the `LinkedChunk` segmented container, the `AsVector`
vector-diff projection, and the protocol-level `apply_redaction` function —
live in other crates of the repository and are modelled from the
specification (spec §4.1, §4.2, §4.4, §6); each such definition carries a
doc comment starting with `Modelled from the spec:`.

Machine conventions: event identifiers and chunk identifiers are `Nat`;
the raw serialized form of an event is modelled by the observations the
cache makes of it (its `"type"` field, its deserialization, and whether the
redaction algorithm has been applied to it). All definitions are
executable.
-/

namespace EventCache

/-- Event identifiers (`OwnedEventId` in the source) are opaque; we model
them as natural numbers. -/
abbrev EventId := Nat

/-- Modelled from the spec: a room version is "an opaque string selecting
variant rules for redaction-target resolution" (§GLOSSARY). The cache only
observes whether the version stores the redaction target in
`content.redacts` (newer versions) or in the top-level `redacts` field
(§4.4 Target selection), so we model exactly that choice. -/
structure RoomVersionId where
  redactsInContent : Bool
deriving DecidableEq, Repr

/-- Modelled from the spec: the typed form of an event, as far as the cache
observes it (§4.4). A fully deserialized event is either a room-redaction
event (a message-like event carrying the two possible redaction-target
fields), some other message-like event, or a state event. `originalContent`
is `true` when `original_content()` would return `Some` (i.e. the event is
not already redacted). -/
inductive TimelineView where
  | roomRedaction (redactsTop redactsContent : Option EventId)
      (originalContent : Bool)
  | otherMessageLike (originalContent : Bool)
  | state (originalContent : Bool)
deriving DecidableEq, Repr

/-- Whether `original_content()` of this deserialized event is `Some`. -/
def TimelineView.originalContentIsSome : TimelineView → Bool
  | .roomRedaction _ _ oc => oc
  | .otherMessageLike oc => oc
  | .state oc => oc

/-- Modelled from the spec: the target event id carried by a deserialized
redaction, resolved by room version: "for versions where the target id is
in the top-level `redacts`, use that; for newer versions, use
`content.redacts`" (§4.4). Non-redaction events carry no target. -/
def TimelineView.redacts (v : TimelineView) (roomVersion : RoomVersionId) :
    Option EventId :=
  match v with
  | .roomRedaction top content _ =>
      if roomVersion.redactsInContent then content else top
  | .otherMessageLike _ => none
  | .state _ => none

/-- Modelled from the spec: the raw serialized form of an event, reduced to
the observations the cache makes of it (§3, §4.4):

* `typeIsRedaction` — whether the cheap `get_field("type")` probe returns
  `Ok(Some(RoomRedaction))`; every other outcome (other type, absent field,
  parse error) takes the same early-return path in the source;
* `deser` — the result of full deserialization (`none` = failure);
* `redactionApplied` — whether the protocol's redaction algorithm has
  already been applied to this payload (used by `apply_redaction`, whose
  contract is "returns `None` if the redaction is invalid or already
  applied", §6). -/
structure RawValue where
  typeIsRedaction : Bool
  deser : Option TimelineView
  redactionApplied : Bool
deriving DecidableEq, Repr

/-- Modelled from the spec: an opaque event value. "Carries an identifier
(possibly absent), a raw serialized form" with accessors `event_id()`,
`raw()`, `replace_raw(newRaw)` (§3). The identifier is preserved by
`replace_raw` (redaction "keeps its identifier and ordering", §GLOSSARY). -/
structure Event where
  eventId : Option EventId
  raw : RawValue
deriving DecidableEq, Repr

/-- `Event::replace_raw` (§3): replace the raw serialized form. -/
def Event.replace_raw (e : Event) (newRaw : RawValue) : Event :=
  { e with raw := newRaw }

/-- A gap marker carrying a `prev_token` (§3). -/
structure Gap where
  prevToken : String
deriving DecidableEq, Repr

/-- `Position`: a `(ChunkIdentifier, index)` pair addressing an item
(§3). -/
structure Position where
  chunk_identifier : Nat
  index : Nat
deriving DecidableEq, Repr

/-- `Position::decrement_index` used by
`remove_events_and_update_insert_position`. -/
def Position.decrement_index (p : Position) : Position :=
  { p with index := p.index - 1 }

/-- The content of a chunk: an items-chunk or a gap chunk (§3). -/
inductive ChunkContent where
  | items (events : List Event)
  | gap (gap : Gap)
deriving DecidableEq, Repr

/-- A chunk of the container: an identifier and a content (§3). The chain
order is the list order of the enclosing container. -/
structure Chunk where
  id : Nat
  content : ChunkContent
deriving DecidableEq, Repr

/-- The events held by a chunk (empty for a gap chunk). -/
def Chunk.items : Chunk → List Event
  | ⟨_, .items es⟩ => es
  | ⟨_, .gap _⟩ => []

/-- Whether the chunk is a gap chunk. -/
def Chunk.isGap : Chunk → Bool
  | ⟨_, .gap _⟩ => true
  | ⟨_, .items _⟩ => false

/-- The error taxonomy of the container (§7). -/
inductive Error where
  | chunkNotFound
  | notAGap
  | notAnItemsChunk
  | invalidPosition
  | invalidOperation
deriving DecidableEq, Repr

/-- `EmptyChunk`: policy controlling whether an items-chunk left empty by a
removal is deleted or kept (§4.1 `remove_item_at`). -/
inductive EmptyChunk where
  | keep
  | remove
deriving DecidableEq, Repr

/-- The vector-diff operations over the flat item sequence (§4.2). -/
inductive VectorDiff where
  | append (values : List Event)
  | insert (index : Nat) (value : Event)
  | set (index : Nat) (value : Event)
  | remove (index : Nat)
  | clear
deriving DecidableEq, Repr

/-- `DEFAULT_CHUNK_CAPACITY` of the store: the fixed capacity `C` of
items-chunks. -/
def DEFAULT_CHUNK_CAPACITY : Nat := 128

/-- Modelled from the spec: the segmented container state (§4.1, §9
"arena + identifiers"). `chunks` is the chain in order; `nextId` is the
monotonically increasing identifier counter that never reuses a value. -/
structure LinkedChunk where
  chunks : List Chunk
  nextId : Nat
deriving DecidableEq, Repr

/-- `LinkedChunk::new…`: a single empty items-chunk with identifier 0. -/
def LinkedChunk.empty : LinkedChunk :=
  { chunks := [⟨0, .items []⟩], nextId := 1 }

/-- The flat in-order item sequence of the container: the concatenation of
the items of every items-chunk, in chain order. -/
def flatItems : List Chunk → List Event
  | [] => []
  | c :: cs => c.items ++ flatItems cs

/-- The items of one chunk paired with their positions, starting at index
`i`. -/
def itemsWithPosAux (cid i : Nat) : List Event → List (Position × Event)
  | [] => []
  | e :: es => (⟨cid, i⟩, e) :: itemsWithPosAux cid (i + 1) es

/-- The in-order item sequence with the position of each item, as produced
by the `items()` iterator (§4.1 Iteration). -/
def itemsWithPos : List Chunk → List (Position × Event)
  | [] => []
  | c :: cs => itemsWithPosAux c.id 0 c.items ++ itemsWithPos cs

/-- The predicate of the removal and redaction scans: does this
position/event pair carry the searched event id
(`event.event_id() == Some(event_id)` in the source)? -/
def matchesId (event_id : EventId) (pe : Position × Event) : Bool :=
  pe.2.eventId == some event_id

/-- Split the chain at the first chunk bearing the given identifier. -/
def splitAtChunk (cid : Nat) : List Chunk →
    Option (List Chunk × Chunk × List Chunk)
  | [] => none
  | c :: cs =>
      if c.id = cid then some ([], c, cs)
      else (splitAtChunk cid cs).map fun pcp =>
        (c :: pcp.1, pcp.2.1, pcp.2.2)

/-- Fuel-driven worker for `chunkify` (structural recursion so that the
definition computes by kernel reduction; the fuel is always at least the
length of the list). -/
def chunkifyF : Nat → List Event → List (List Event)
  | 0, _ => []
  | fuel + 1, es =>
    if es = [] then []
    else es.take DEFAULT_CHUNK_CAPACITY ::
      chunkifyF fuel (es.drop DEFAULT_CHUNK_CAPACITY)

/-- Cut a list of events into segments of at most `DEFAULT_CHUNK_CAPACITY`
events each; all segments of a nonempty input are nonempty. Used to spill
overflowing pushes and insertions into additional chunks (§4.1). -/
def chunkify (es : List Event) : List (List Event) :=
  chunkifyF es.length es

/-- Fresh items-chunks for the given segments, numbered from `startId`. -/
def mkChunks (startId : Nat) : List (List Event) → List Chunk
  | [] => []
  | seg :: segs => ⟨startId, .items seg⟩ :: mkChunks (startId + 1) segs

/-- An `Insert` diff per value, at consecutive indices starting at
`off`. -/
def insertRun (off : Nat) : List Event → List VectorDiff
  | [] => []
  | x :: xs => .insert off x :: insertRun (off + 1) xs

/-- Modelled from the spec: the diff emitted for a run of items entering
the flat sequence at offset `off` when the flat sequence currently has
`total` items: "`PushItems` at a position that resolves to the current end
of the flat sequence → `Append{values}`; otherwise → a run of
`Insert{index+k, value_k}`" (§4.2). -/
def emitItems (off total : Nat) (values : List Event) : List VectorDiff :=
  if off = total then [.append values] else insertRun off values

/-- Modelled from the spec: `push_items_back(items)` (§4.1). "Append items
after the last chunk. If the last chunk is an items-chunk with free
capacity, fill it; overflow spills into newly created items-chunks chained
after it. If the last chunk is a gap, a new items-chunk is created after
the gap. Empty input is a no-op." The emitted `PushItems` records all sit
at the end of the flat sequence, so the projection emits `Append` (§4.2);
we emit one `Append` for the whole batch, which replays identically to the
per-chunk-segment granularity of the raw log. -/
def LinkedChunk.push_items_back (lc : LinkedChunk) (events : List Event) :
    LinkedChunk × List VectorDiff :=
  if events = [] then (lc, [])
  else
    let d := [VectorDiff.append events]
    match lc.chunks.getLast? with
    | some ⟨cid, .items es⟩ =>
        if es.length < DEFAULT_CHUNK_CAPACITY then
          match chunkify (es ++ events) with
          | [] => (lc, [])
          | seg :: rest =>
              ({ chunks := lc.chunks.dropLast ++
                    (⟨cid, .items seg⟩ :: mkChunks lc.nextId rest),
                 nextId := lc.nextId + rest.length }, d)
        else
          let segs := chunkify events
          ({ chunks := lc.chunks ++ mkChunks lc.nextId segs,
             nextId := lc.nextId + segs.length }, d)
    | _ =>
        let segs := chunkify events
        ({ chunks := lc.chunks ++ mkChunks lc.nextId segs,
           nextId := lc.nextId + segs.length }, d)

/-- Modelled from the spec: `push_gap_back(gap)` (§4.1). "Append a gap
chunk at the end. Rejects (fails with `InvalidOperation`) if the last chunk
is already a gap." Emits no item diff (gaps are invisible to the flat
sequence, §4.2). -/
def LinkedChunk.push_gap_back (lc : LinkedChunk) (gap : Gap) :
    Except Error (LinkedChunk × List VectorDiff) :=
  if (lc.chunks.getLast?).any Chunk.isGap then .error .invalidOperation
  else .ok ({ chunks := lc.chunks ++ [⟨lc.nextId, .gap gap⟩],
              nextId := lc.nextId + 1 }, [])

/-- Modelled from the spec: `insert_items_at(items, position)` (§4.1).
"Insert items immediately before `position` … if `index == len(chunk)`,
this is at the end of that chunk. Overflow splits the containing chunk into
a new items-chunk following it and carries trailing items across. Fails
with `InvalidPosition` on unknown chunk identifier or out-of-range index."
The raw log's Detach/Reattach envelope is coalesced by the projection into
the net run of `Insert`s (§4.2), emitted here directly. -/
def LinkedChunk.insert_items_at (lc : LinkedChunk) (events : List Event)
    (pos : Position) : Except Error (LinkedChunk × List VectorDiff) :=
  match splitAtChunk pos.chunk_identifier lc.chunks with
  | none => .error .invalidPosition
  | some (pre, c, post) =>
    match c.content with
    | .gap _ => .error .notAnItemsChunk
    | .items es =>
      if pos.index > es.length then .error .invalidPosition
      else if events = [] then .ok (lc, [])
      else
        match chunkify (es.take pos.index ++ events ++ es.drop pos.index) with
        | [] => .ok (lc, [])
        | seg :: rest =>
          .ok ({ chunks := pre ++ (⟨c.id, .items seg⟩ ::
                    mkChunks lc.nextId rest) ++ post,
                 nextId := lc.nextId + rest.length },
               emitItems ((flatItems pre).length + pos.index)
                 (flatItems lc.chunks).length events)

/-- Modelled from the spec: `insert_gap_at(gap, position)` (§4.1). "Split
the containing items-chunk at `position`, place a new gap chunk between the
two halves. If `position.index == 0` and the previous chunk is already a
gap, fails with `InvalidOperation`." At index 0 the gap is placed before
the chunk without splitting. Emits no item diff: the split's
Detach/Reattach envelope coalesces to nothing (§4.2). -/
def LinkedChunk.insert_gap_at (lc : LinkedChunk) (gap : Gap)
    (pos : Position) : Except Error (LinkedChunk × List VectorDiff) :=
  match splitAtChunk pos.chunk_identifier lc.chunks with
  | none => .error .invalidPosition
  | some (pre, c, post) =>
    match c.content with
    | .gap _ => .error .notAnItemsChunk
    | .items es =>
      if pos.index > es.length then .error .invalidPosition
      else if pos.index = 0 then
        if (pre.getLast?).any Chunk.isGap then .error .invalidOperation
        else .ok ({ chunks := pre ++ ⟨lc.nextId, .gap gap⟩ :: c :: post,
                    nextId := lc.nextId + 1 }, [])
      else
        .ok ({ chunks := pre ++ ⟨c.id, .items (es.take pos.index)⟩ ::
                  ⟨lc.nextId, .gap gap⟩ ::
                  ⟨lc.nextId + 1, .items (es.drop pos.index)⟩ :: post,
               nextId := lc.nextId + 2 }, [])

/-- Modelled from the spec: `remove_gap_at(gap_id)` (§4.1). "Delete the
named gap chunk. Returns the position of the first item in the next chunk
after the removed gap, or `None` if the gap was last. Fails with
`ChunkNotFound` or `NotAGap`." Emits no item diff. -/
def LinkedChunk.remove_gap_at (lc : LinkedChunk) (cid : Nat) :
    Except Error (LinkedChunk × List VectorDiff × Option Position) :=
  match splitAtChunk cid lc.chunks with
  | none => .error .chunkNotFound
  | some (pre, c, post) =>
    match c.content with
    | .items _ => .error .notAGap
    | .gap _ =>
      .ok ({ chunks := pre ++ post, nextId := lc.nextId }, [],
           post.head?.map fun c' => Position.mk c'.id 0)

/-- Modelled from the spec: `replace_gap_at(items, gap_id)` (§4.1).
"Atomic: substitutes the gap chunk with one or more new items-chunks
containing `items` … Returns the first position of the inserted run. The
old gap's `ChunkIdentifier` is retired." The domain wrapper handles the
empty-`items` case before calling (it delegates to `remove_gap_at`), so
this primitive is modelled for nonempty `items` only and rejects an empty
run. -/
def LinkedChunk.replace_gap_at (lc : LinkedChunk) (events : List Event)
    (cid : Nat) : Except Error (LinkedChunk × List VectorDiff × Position) :=
  match splitAtChunk cid lc.chunks with
  | none => .error .chunkNotFound
  | some (pre, c, post) =>
    match c.content with
    | .items _ => .error .notAGap
    | .gap _ =>
      if events = [] then .error .invalidOperation
      else
        .ok ({ chunks := pre ++ mkChunks lc.nextId (chunkify events) ++ post,
               nextId := lc.nextId + (chunkify events).length },
             emitItems (flatItems pre).length (flatItems lc.chunks).length
               events,
             Position.mk lc.nextId 0)

/-- Modelled from the spec: `replace_item_at(position, new_item)` (§4.1).
"In-place overwrite; emits `ReplaceItem`. Fails with `InvalidPosition`."
The projection turns `ReplaceItem{at}` into `Set{index, item}` at the flat
offset (§4.2). -/
def LinkedChunk.replace_item_at (lc : LinkedChunk) (pos : Position)
    (item : Event) : Except Error (LinkedChunk × List VectorDiff) :=
  match splitAtChunk pos.chunk_identifier lc.chunks with
  | none => .error .invalidPosition
  | some (pre, c, post) =>
    match c.content with
    | .gap _ => .error .invalidPosition
    | .items es =>
      if pos.index < es.length then
        .ok ({ chunks := pre ++ ⟨c.id, .items (es.set pos.index item)⟩ :: post,
               nextId := lc.nextId },
             [.set ((flatItems pre).length + pos.index) item])
      else .error .invalidPosition

/-- Modelled from the spec: `remove_item_at(position, empty_policy)`
(§4.1). "Delete the item; left-shifts items to its right within the same
chunk. If the chunk becomes empty, `empty_policy ∈ {Keep, Remove}` controls
whether the empty items-chunk is retained … gap-adjacency rule must still
be preserved (removing an items-chunk that sits between two gap chunks
fails with `InvalidOperation`; the caller must use `Keep`)." The first
chunk of the chain is never deleted (the chain always keeps a first chunk),
matching the container's construction. `RemoveItem{at}` projects to
`Remove{index}` at the flat offset (§4.2). -/
def LinkedChunk.remove_item_at (lc : LinkedChunk) (pos : Position)
    (policy : EmptyChunk) : Except Error (LinkedChunk × List VectorDiff) :=
  match splitAtChunk pos.chunk_identifier lc.chunks with
  | none => .error .chunkNotFound
  | some (pre, c, post) =>
    match c.content with
    | .gap _ => .error .notAnItemsChunk
    | .items es =>
      if pos.index < es.length then
        let d := [VectorDiff.remove ((flatItems pre).length + pos.index)]
        if es.eraseIdx pos.index = [] ∧ policy = .remove ∧ pre ≠ [] then
          if (pre.getLast?).any Chunk.isGap && (post.head?).any Chunk.isGap
          then .error .invalidOperation
          else .ok ({ chunks := pre ++ post, nextId := lc.nextId }, d)
        else
          .ok ({ chunks := pre ++ ⟨c.id, .items (es.eraseIdx pos.index)⟩ ::
                    post,
                 nextId := lc.nextId }, d)
      else .error .invalidPosition

/-- Modelled from the spec: `clear()` (§4.1). "Drop all chunks, reset
counters to a fresh empty items-chunk with a *new* identifier (old
identifiers are not reused). Emits `Clear` followed by
`NewItemsChunk(id=fresh, position=start)`" — the latter carries no items,
so the projection emits only the `Clear` diff (§4.2). -/
def LinkedChunk.clear (lc : LinkedChunk) : LinkedChunk × List VectorDiff :=
  ({ chunks := [⟨lc.nextId, .items []⟩], nextId := lc.nextId + 1 },
   [.clear])

/-- Modelled from the spec: the protocol's redaction algorithm,
`apply_redaction(target_raw, redaction_raw, room_version) ->
Option<RawValue>`: a "pure function; returns `None` if the redaction is
invalid or already applied" (§6). The successful result is the redacted
payload: its deserialized variant (when it deserializes at all) "reports
empty original content" (§4.4). -/
def apply_redaction (targetRaw _redactionRaw : RawValue)
    (_roomVersion : RoomVersionId) : Option RawValue :=
  if targetRaw.redactionApplied then none
  else some { targetRaw with
                redactionApplied := true,
                deser := targetRaw.deser.map fun v =>
                  match v with
                  | .roomRedaction top content _ =>
                      .roomRedaction top content false
                  | .otherMessageLike _ => .otherMessageLike false
                  | .state _ => .state false }

/-- `RoomEvents` (events.rs): the linked chunk of events of a single room,
together with the buffer of vector diffs not yet drained by
`updates_as_vector_diffs` (the `AsVector` projection state). -/
structure RoomEvents where
  chunks : LinkedChunk
  pending : List VectorDiff
deriving DecidableEq, Repr

namespace RoomEvents

/-- `RoomEvents::new`: zero events — a container with a single empty
items-chunk and an empty diff buffer. -/
def new : RoomEvents :=
  { chunks := LinkedChunk.empty, pending := [] }

/-- `RoomEvents::events`: iterate over the events, forward (oldest
first), with their positions. -/
def events (re : RoomEvents) : List (Position × Event) :=
  itemsWithPos re.chunks.chunks

/-- `RoomEvents::revents`: iterate over the events, backward (most recent
first). -/
def revents (re : RoomEvents) : List (Position × Event) :=
  (itemsWithPos re.chunks.chunks).reverse

/-- `RoomEvents::updates_as_vector_diffs`: drain — return all diffs
produced since the last drain and empty the buffer (§4.2 Drain
semantics). -/
def updates_as_vector_diffs (re : RoomEvents) :
    List VectorDiff × RoomEvents :=
  (re.pending, { re with pending := [] })

/-- `RoomEvents::push_events`: forwards to `push_items_back`. -/
def push_events (re : RoomEvents) (evs : List Event) : RoomEvents :=
  let r := re.chunks.push_items_back evs
  { chunks := r.1, pending := re.pending ++ r.2 }

/-- `RoomEvents::push_gap`: forwards to `push_gap_back`. The source
signature returns no value; a rejected push leaves the container
unchanged. -/
def push_gap (re : RoomEvents) (gap : Gap) : RoomEvents :=
  match re.chunks.push_gap_back gap with
  | .ok r => { chunks := r.1, pending := re.pending ++ r.2 }
  | .error _ => re

/-- `RoomEvents::insert_events_at`: forwards to `insert_items_at`. -/
def insert_events_at (re : RoomEvents) (evs : List Event) (pos : Position) :
    Except Error RoomEvents :=
  match re.chunks.insert_items_at evs pos with
  | .ok r => .ok { chunks := r.1, pending := re.pending ++ r.2 }
  | .error e => .error e

/-- `RoomEvents::insert_gap_at`: forwards. -/
def insert_gap_at (re : RoomEvents) (gap : Gap) (pos : Position) :
    Except Error RoomEvents :=
  match re.chunks.insert_gap_at gap pos with
  | .ok r => .ok { chunks := r.1, pending := re.pending ++ r.2 }
  | .error e => .error e

/-- `RoomEvents::remove_gap_at`: forwards; "returns the next insert
position, if any, left after the gap that has just been removed". -/
def remove_gap_at (re : RoomEvents) (cid : Nat) :
    Except Error (RoomEvents × Option Position) :=
  match re.chunks.remove_gap_at cid with
  | .ok r => .ok ({ chunks := r.1, pending := re.pending ++ r.2.1 }, r.2.2)
  | .error e => .error e

/-- `RoomEvents::replace_gap_at` (events.rs, lines 222–237): if `events`
is empty "there's no need to create a new empty items chunk; instead,
remove the gap"; otherwise replace the gap and return the first position
of the newly created chunk. -/
def replace_gap_at (re : RoomEvents) (evs : List Event) (cid : Nat) :
    Except Error (RoomEvents × Option Position) :=
  if evs = [] then re.remove_gap_at cid
  else
    match re.chunks.replace_gap_at evs cid with
    | .ok r =>
        .ok ({ chunks := r.1, pending := re.pending ++ r.2.1 }, some r.2.2)
    | .error e => .error e

/-- One iteration of the `remove_events_by_id` loop (events.rs, lines
244–263): reverse-scan for the id; if absent, log and continue (the state
is unchanged); if found, remove at that position with `EmptyChunk::Remove`.
`none` models the `.expect(…)` panicking on a removal failure. -/
def removeByIdStep (re : RoomEvents) (event_id : EventId) :
    Option RoomEvents :=
  match re.revents.find? (matchesId event_id) with
  | none => some re
  | some pe =>
    match re.chunks.remove_item_at pe.1 .remove with
    | .ok r => some { chunks := r.1, pending := re.pending ++ r.2 }
    | .error _ => none

/-- `RoomEvents::remove_events_by_id`: iterate over all event IDs and
remove the associated event, if it exists, from the chunks. -/
def remove_events_by_id (re : RoomEvents) : List EventId → Option RoomEvents
  | [] => some re
  | event_id :: rest =>
    match re.removeByIdStep event_id with
    | some re' => re'.remove_events_by_id rest
    | none => none

/-- The position adjustment of
`remove_events_and_update_insert_position` (events.rs, lines 317–340): the
position is touched only when the removal happened in the same chunk, and
is shifted left by one only when the removed index is strictly smaller. -/
def adjustPosition (event_position position : Position) : Position :=
  if event_position.chunk_identifier = position.chunk_identifier then
    if event_position.index < position.index then
      position.decrement_index
    else position
  else position

/-- One iteration of the `remove_events_and_update_insert_position` loop
(events.rs, lines 299–341): reverse-scan for the id; if absent, log and
continue; if found, remove with `EmptyChunk::Keep` and adjust the
maintained position. `none` models the `.expect(…)` panicking. -/
def removeAndUpdateStep (re : RoomEvents) (event_id : EventId)
    (position : Position) : Option (RoomEvents × Position) :=
  match re.revents.find? (matchesId event_id) with
  | none => some (re, position)
  | some pe =>
    match re.chunks.remove_item_at pe.1 .keep with
    | .ok r =>
        some ({ chunks := r.1, pending := re.pending ++ r.2 },
              adjustPosition pe.1 position)
    | .error _ => none

/-- `RoomEvents::remove_events_and_update_insert_position`. -/
def remove_events_and_update_insert_position (re : RoomEvents) :
    List EventId → Position → Option (RoomEvents × Position)
  | [], position => some (re, position)
  | event_id :: rest, position =>
    match re.removeAndUpdateStep event_id position with
    | some rp => rp.1.remove_events_and_update_insert_position rest rp.2
    | none => none

/-- `RoomEvents::maybe_apply_new_redaction` (events.rs, lines 89–163): if
the given event is a redaction, try to retrieve the to-be-redacted event in
the chunk and replace it by the redacted form. `none` models the
`.expect("should have been a valid position of an item")` panicking. -/
def maybe_apply_new_redaction (re : RoomEvents)
    (room_version : RoomVersionId) (event : Event) : Option RoomEvents :=
  -- cheap `"type"` probe: anything but `Ok(Some(RoomRedaction))` returns
  if event.raw.typeIsRedaction then
    -- full deserialization must yield a message-like room-redaction event
    match event.raw.deser with
    | some (.roomRedaction top content oc) =>
      match TimelineView.redacts (.roomRedaction top content oc)
          room_version with
      | none => some re   -- "missing target event id from the redaction event"
      | some event_id =>
        match re.events.find? (matchesId event_id) with
        | none => some re -- "redacted event is missing from the linked chunk"
        | some pe =>
          -- don't redact already redacted events
          if (pe.2.raw.deser.map fun v => !v.originalContentIsSome).getD
              false then
            some re
          else
            match apply_redaction pe.2.raw event.raw room_version with
            | none => some re
            | some redacted =>
              match re.chunks.replace_item_at pe.1
                  (pe.2.replace_raw redacted) with
              | .ok r => some { chunks := r.1, pending := re.pending ++ r.2 }
              | .error _ => none
    | _ => some re
  else some re

/-- `RoomEvents::on_new_events`: apply `maybe_apply_new_redaction` to
every incoming event. -/
def on_new_events (re : RoomEvents) (room_version : RoomVersionId) :
    List Event → Option RoomEvents
  | [] => some re
  | e :: es =>
    match re.maybe_apply_new_redaction room_version e with
    | some re' => re'.on_new_events room_version es
    | none => none

/-- `RoomEvents::reset`: forwards to `clear`. -/
def reset (re : RoomEvents) : RoomEvents :=
  let r := re.chunks.clear
  { chunks := r.1, pending := re.pending ++ r.2 }

end RoomEvents

/-- Insert a value at an index of a flat vector (the semantics of the
`Insert` vector diff: the value ends up at `index`, everything from `index`
on is shifted right). -/
def insertAt (i : Nat) (x : Event) (v : List Event) : List Event :=
  v.take i ++ x :: v.drop i

/-- Apply one vector diff to a flat vector, as an observer mirroring the
diff stream would (§4.2). -/
def applyDiff (v : List Event) : VectorDiff → List Event
  | .append values => v ++ values
  | .insert i x => insertAt i x v
  | .set i x => v.set i x
  | .remove i => v.eraseIdx i
  | .clear => []

/-- Apply a stream of vector diffs in order. -/
def applyDiffs (v : List Event) (ds : List VectorDiff) : List Event :=
  ds.foldl applyDiff v

/-- The mutations available on a `RoomEvents` container (§6 Ingress): the
alphabet over which the replay invariant is quantified. -/
inductive Mutation where
  | pushEvents (events : List Event)
  | pushGap (gap : Gap)
  | insertEventsAt (events : List Event) (pos : Position)
  | insertGapAt (gap : Gap) (pos : Position)
  | removeGapAt (cid : Nat)
  | replaceGapAt (events : List Event) (cid : Nat)
  | removeEventsById (ids : List EventId)
  | removeEventsAndUpdate (ids : List EventId) (pos : Position)
  | onNewEvents (roomVersion : RoomVersionId) (events : List Event)
  | reset
deriving Repr

/-- Apply one mutation. A mutation whose operation fails with a structural
error leaves the container unchanged and emits nothing (operations are
atomic, §7); `none` models a panic of one of the `.expect(…)` calls. -/
def applyMutation (re : RoomEvents) : Mutation → Option RoomEvents
  | .pushEvents evs => some (re.push_events evs)
  | .pushGap gap => some (re.push_gap gap)
  | .insertEventsAt evs pos =>
      match re.insert_events_at evs pos with
      | .ok re' => some re'
      | .error _ => some re
  | .insertGapAt gap pos =>
      match re.insert_gap_at gap pos with
      | .ok re' => some re'
      | .error _ => some re
  | .removeGapAt cid =>
      match re.remove_gap_at cid with
      | .ok r => some r.1
      | .error _ => some re
  | .replaceGapAt evs cid =>
      match re.replace_gap_at evs cid with
      | .ok r => some r.1
      | .error _ => some re
  | .removeEventsById ids => re.remove_events_by_id ids
  | .removeEventsAndUpdate ids pos =>
      (re.remove_events_and_update_insert_position ids pos).map (·.1)
  | .onNewEvents rv evs => re.on_new_events rv evs
  | .reset => some re.reset

/-- Apply a sequence of mutations, stopping at a panic. -/
def applyMutations (re : RoomEvents) : List Mutation → Option RoomEvents
  | [] => some re
  | m :: ms =>
    match applyMutation re m with
    | some re' => applyMutations re' ms
    | none => none

/-- Well-formedness of the container (spec invariant 4): chunk identifiers
are pairwise distinct, and every issued identifier is below the counter. -/
abbrev WF (lc : LinkedChunk) : Prop :=
  (lc.chunks.map Chunk.id).Nodup ∧ ∀ c ∈ lc.chunks, c.id < lc.nextId

/-- One observable step: the new diff buffer extends the old one, and the
emitted suffix replays the flat-sequence change. -/
def StepOK (re re' : RoomEvents) : Prop :=
  ∃ d, re'.pending = re.pending ++ d ∧
    flatItems re'.chunks.chunks = applyDiffs (flatItems re.chunks.chunks) d

/-- The replay invariant (spec invariant 6): applying the whole emitted
diff stream to an initially empty vector yields the current flat item
sequence. -/
def Replays (re : RoomEvents) : Prop :=
  applyDiffs [] re.pending = flatItems re.chunks.chunks

/-- The configuration in which `remove_item_at` with policy `Remove` is
rejected: the removal would leave empty an items-chunk lying strictly
between two gap chunks, which would make two gaps adjacent
(`InvalidOperation`, spec §4.1). -/
def removalBlocked (lc : LinkedChunk) (p : Position) : Bool :=
  match splitAtChunk p.chunk_identifier lc.chunks with
  | some (pre, c, post) =>
      (c.items.length == 1) && (pre.getLast?).any Chunk.isGap &&
        (post.head?).any Chunk.isGap
  | none => false

/-- Safety of a whole `remove_events_by_id` run: at each step, either the
id is not found (the step is skipped) or the removal it performs is not in
the blocked configuration. -/
def removeRunSafe (re : RoomEvents) : List EventId → Bool
  | [] => true
  | event_id :: rest =>
    match re.revents.find? (matchesId event_id) with
    | none => removeRunSafe re rest
    | some pe =>
        !removalBlocked re.chunks pe.1 &&
          removeRunSafe ((re.removeByIdStep event_id).getD re) rest

/-- A plain sample event with the given id (used in concrete witnesses). -/
def sampleEvent (n : Nat) : Event :=
  { eventId := some n,
    raw := { typeIsRedaction := false, deser := none,
             redactionApplied := false } }

/-- A sample redaction event targeting event id `t` via both the top-level
and the content `redacts` fields. -/
def sampleRedaction (t : EventId) : Event :=
  { eventId := some (t + 1000),
    raw := { typeIsRedaction := true,
             deser := some (.roomRedaction (some t) (some t) true),
             redactionApplied := false } }

/-- A concrete mutation sequence used to witness the replay invariant. -/
def witnessMutations : List Mutation :=
  [.pushEvents [sampleEvent 0, sampleEvent 1], .pushGap ⟨"g"⟩,
   .pushEvents [sampleEvent 2], .removeEventsById [1], .reset,
   .pushEvents [sampleEvent 3]]

/-- The state reached by the witness mutation sequence. -/
def witnessState : RoomEvents :=
  (applyMutations RoomEvents.new witnessMutations).getD RoomEvents.new

/-- A small populated container: two events, a gap, one event. -/
def sampleState : RoomEvents :=
  ((RoomEvents.new.push_events [sampleEvent 0, sampleEvent 1]).push_gap
    ⟨"tok"⟩).push_events [sampleEvent 2]

/-- The container `[ev0] gap [ev1] gap`: its middle items-chunk sits
between two gap chunks, so removing its only event with policy `Remove` is
rejected and the `expect` in `remove_events_by_id` panics. -/
def betweenGapsState : RoomEvents :=
  (((RoomEvents.new.push_events [sampleEvent 0]).push_gap
    ⟨"a"⟩).push_events [sampleEvent 1]).push_gap ⟨"b"⟩

/-- A two-event container used to witness redaction idempotence. -/
def c4Base : RoomEvents :=
  RoomEvents.new.push_events [sampleEvent 0, sampleEvent 1]

/-- `c4Base` after one application of a redaction targeting event 0. -/
def c4Once : RoomEvents :=
  (c4Base.on_new_events ⟨true⟩ [sampleRedaction 0]).getD RoomEvents.new

/-! ### Basic structural lemmas -/

theorem flatItems_append (a b : List Chunk) :
    flatItems (a ++ b) = flatItems a ++ flatItems b := by
  induction a with
  | nil => rfl
  | cons c cs ih => simp [flatItems, ih]

theorem flatItems_mkChunks (i : Nat) (segs : List (List Event)) :
    flatItems (mkChunks i segs) = segs.flatten := by
  induction segs generalizing i with
  | nil => rfl
  | cons s ss ih => simp [mkChunks, flatItems, Chunk.items, ih]

theorem chunkifyF_eq : ∀ {fuel : Nat} {fuel' : Nat} {es : List Event},
    es.length ≤ fuel → es.length ≤ fuel' →
    chunkifyF fuel es = chunkifyF fuel' es := by
  intro fuel
  induction fuel with
  | zero =>
    intro fuel' es h h'
    have hes : es = [] := List.eq_nil_of_length_eq_zero (Nat.le_zero.1 h)
    subst hes
    cases fuel' <;> simp [chunkifyF]
  | succ n ih =>
    intro fuel' es h h'
    cases fuel' with
    | zero =>
      have hes : es = [] := List.eq_nil_of_length_eq_zero (Nat.le_zero.1 h')
      subst hes
      simp [chunkifyF]
    | succ m =>
      by_cases hes : es = []
      · subst hes; simp [chunkifyF]
      · have hne : es.length ≠ 0 :=
          fun hh => hes (List.eq_nil_of_length_eq_zero hh)
        refine ?_
        simp only [chunkifyF, if_neg hes]
        congr 1
        refine ih ?_ ?_ <;>
        · simp only [List.length_drop, DEFAULT_CHUNK_CAPACITY]
          omega

theorem chunkify_cons (es : List Event) (h : es ≠ []) :
    chunkify es = es.take DEFAULT_CHUNK_CAPACITY ::
      chunkify (es.drop DEFAULT_CHUNK_CAPACITY) := by
  have hne : es.length ≠ 0 := fun hh => h (List.eq_nil_of_length_eq_zero hh)
  unfold chunkify
  cases hlen : es.length with
  | zero => exact absurd (List.eq_nil_of_length_eq_zero hlen) h
  | succ n =>
    simp only [chunkifyF, if_neg h]
    congr 1
    refine chunkifyF_eq ?_ (Nat.le_refl _)
    simp only [List.length_drop, DEFAULT_CHUNK_CAPACITY]
    omega

theorem chunkifyF_flatten : ∀ (fuel : Nat) (es : List Event),
    es.length ≤ fuel → (chunkifyF fuel es).flatten = es := by
  intro fuel
  induction fuel with
  | zero =>
    intro es h
    have hes : es = [] := List.eq_nil_of_length_eq_zero (Nat.le_zero.1 h)
    subst hes
    rfl
  | succ n ih =>
    intro es h
    by_cases hes : es = []
    · subst hes; simp [chunkifyF]
    · have hne : es.length ≠ 0 :=
        fun hh => hes (List.eq_nil_of_length_eq_zero hh)
      simp only [chunkifyF, if_neg hes, List.flatten_cons]
      rw [ih _ (by
        simp only [List.length_drop, DEFAULT_CHUNK_CAPACITY]
        omega)]
      exact List.take_append_drop _ _

theorem chunkify_flatten (es : List Event) : (chunkify es).flatten = es :=
  chunkifyF_flatten _ _ (Nat.le_refl _)

theorem chunkify_ne_nil {es : List Event} (h : es ≠ []) : chunkify es ≠ [] := by
  rw [chunkify_cons es h]; simp

theorem applyDiffs_append (v : List Event) (d1 d2 : List VectorDiff) :
    applyDiffs v (d1 ++ d2) = applyDiffs (applyDiffs v d1) d2 := by
  simp [applyDiffs, List.foldl_append]

theorem applyDiffs_insertRun (xs : List Event) : ∀ (a b : List Event),
    applyDiffs (a ++ b) (insertRun a.length xs) = a ++ xs ++ b := by
  induction xs with
  | nil => intro a b; simp [insertRun, applyDiffs]
  | cons x xs ih =>
    intro a b
    have h1 : applyDiff (a ++ b) (.insert a.length x) = (a ++ [x]) ++ b := by
      simp [applyDiff, insertAt, List.take_left, List.drop_left]
    have h2 : applyDiffs (a ++ b) (insertRun a.length (x :: xs)) =
        applyDiffs ((a ++ [x]) ++ b) (insertRun (a ++ [x]).length xs) := by
      simp only [insertRun, applyDiffs, List.foldl_cons, h1,
        List.length_append, List.length_cons, List.length_nil]
    rw [h2, ih]
    simp

theorem applyDiffs_emitItems (values a b : List Event) :
    applyDiffs (a ++ b) (emitItems a.length (a ++ b).length values) =
      a ++ values ++ b := by
  unfold emitItems
  by_cases hb : b = []
  · subst hb; simp [applyDiffs, applyDiff]
  · have hne : ¬ a.length = (a ++ b).length := by
      simp only [List.length_append]
      intro h
      exact hb (List.eq_nil_of_length_eq_zero (by omega))
    rw [if_neg hne]
    exact applyDiffs_insertRun values a b

/-! ### `splitAtChunk` and `itemsWithPos` lemmas -/

theorem splitAtChunk_some {cid : Nat} : ∀ {chunks pre : List Chunk}
    {c : Chunk} {post : List Chunk},
    splitAtChunk cid chunks = some (pre, c, post) →
    chunks = pre ++ c :: post ∧ c.id = cid ∧ ∀ c' ∈ pre, c'.id ≠ cid := by
  intro chunks
  induction chunks with
  | nil => intro pre c post h; simp [splitAtChunk] at h
  | cons d ds ih =>
    intro pre c post h
    by_cases hd : d.id = cid
    · simp only [splitAtChunk, if_pos hd, Option.some.injEq,
        Prod.mk.injEq] at h
      obtain ⟨h1, h2, h3⟩ := h
      subst h1; subst h2; subst h3
      exact ⟨rfl, hd, by simp⟩
    · simp only [splitAtChunk, if_neg hd, Option.map_eq_some'] at h
      obtain ⟨⟨pre', c', post'⟩, hsplit, heq⟩ := h
      injection heq with h1 h23
      injection h23 with h2 h3
      obtain ⟨g1, g2, g3⟩ := ih hsplit
      subst h2; subst h3
      refine ⟨by simp [← h1, g1], g2, ?_⟩
      intro c' hc'
      rw [← h1] at hc'
      rcases List.mem_cons.1 hc' with h | h
      · subst h; exact hd
      · exact g3 c' h

theorem splitAtChunk_of (pre : List Chunk) (c : Chunk) (post : List Chunk)
    (hne : ∀ c' ∈ pre, c'.id ≠ c.id) :
    splitAtChunk c.id (pre ++ c :: post) = some (pre, c, post) := by
  induction pre with
  | nil => simp [splitAtChunk]
  | cons d ds ih =>
    have hd : d.id ≠ c.id := hne d (by simp)
    simp [splitAtChunk, hd, ih (fun c' h => hne c' (by simp [h]))]

theorem itemsWithPosAux_append (cid : Nat) (a b : List Event) : ∀ (i : Nat),
    itemsWithPosAux cid i (a ++ b) =
      itemsWithPosAux cid i a ++ itemsWithPosAux cid (i + a.length) b := by
  induction a with
  | nil => intro i; simp [itemsWithPosAux]
  | cons e es ih =>
    intro i
    have heq : i + 1 + es.length = i + (es.length + 1) := by omega
    simp only [List.cons_append, itemsWithPosAux, List.append_eq,
      List.length_cons, ih (i + 1), heq]

theorem itemsWithPos_append (a b : List Chunk) :
    itemsWithPos (a ++ b) = itemsWithPos a ++ itemsWithPos b := by
  induction a with
  | nil => rfl
  | cons c cs ih => simp [itemsWithPos, ih]

theorem itemsWithPosAux_map_snd (cid : Nat) (es : List Event) : ∀ (i : Nat),
    (itemsWithPosAux cid i es).map (·.2) = es := by
  induction es with
  | nil => intro i; rfl
  | cons e es ih => intro i; simp [itemsWithPosAux, ih]

theorem itemsWithPos_map_snd (chunks : List Chunk) :
    (itemsWithPos chunks).map (·.2) = flatItems chunks := by
  induction chunks with
  | nil => rfl
  | cons c cs ih => simp [itemsWithPos, flatItems, itemsWithPosAux_map_snd, ih]

theorem mem_itemsWithPosAux {cid : Nat} {es : List Event} {p : Position}
    {e : Event} : ∀ {i : Nat},
    (p, e) ∈ itemsWithPosAux cid i es ↔
      ∃ j, p = ⟨cid, i + j⟩ ∧ es[j]? = some e := by
  induction es with
  | nil => intro i; simp [itemsWithPosAux]
  | cons x xs ih =>
    intro i
    simp only [itemsWithPosAux, List.mem_cons, Prod.mk.injEq, ih]
    constructor
    · rintro (⟨h1, h2⟩ | ⟨j, h1, h2⟩)
      · exact ⟨0, by simp [h1], by simp [h2]⟩
      · exact ⟨j + 1, by simpa [Nat.add_comm, Nat.add_assoc, Nat.add_left_comm] using h1, by simpa using h2⟩
    · rintro ⟨j, h1, h2⟩
      cases j with
      | zero =>
        left
        simp only [List.getElem?_cons_zero, Option.some.injEq] at h2
        exact ⟨by simpa using h1, h2.symm⟩
      | succ j =>
        right
        refine ⟨j, ?_, by simpa using h2⟩
        simpa [Nat.add_comm, Nat.add_assoc, Nat.add_left_comm] using h1

theorem mem_itemsWithPos {chunks : List Chunk} {p : Position} {e : Event} :
    (p, e) ∈ itemsWithPos chunks →
    ∃ pre c post es, chunks = pre ++ c :: post ∧ c.content = .items es ∧
      c.id = p.chunk_identifier ∧ es[p.index]? = some e := by
  induction chunks with
  | nil => simp [itemsWithPos]
  | cons c cs ih =>
    intro h
    rw [itemsWithPos, List.mem_append] at h
    rcases h with h | h
    · cases hc : c.content with
      | gap g =>
        have : c.items = [] := by
          cases c with | mk cid cc => cases cc <;> simp_all [Chunk.items]
        rw [this] at h
        simp [itemsWithPosAux] at h
      | items es =>
        have hitems : c.items = es := by
          cases c with | mk cid cc => cases cc <;> simp_all [Chunk.items]
        rw [hitems] at h
        obtain ⟨j, hp, hj⟩ := mem_itemsWithPosAux.1 h
        refine ⟨[], c, cs, es, rfl, hc, ?_, ?_⟩
        · simp [hp]
        · simpa [hp] using hj
    · obtain ⟨pre, c', post, es, h1, h2, h3, h4⟩ := ih h
      exact ⟨c :: pre, c', post, es, by simp [h1], h2, h3, h4⟩

theorem matchesId_eq {tid : EventId} {pe : Position × Event}
    (h : matchesId tid pe = true) : pe.2.eventId = some tid := by
  simpa [matchesId] using h

/-! ### Scan results are valid positions (under well-formedness) -/

theorem mem_itemsWithPos_split {lc : LinkedChunk} (hwf : WF lc)
    {p : Position} {e : Event} (h : (p, e) ∈ itemsWithPos lc.chunks) :
    ∃ pre c post es,
      splitAtChunk p.chunk_identifier lc.chunks = some (pre, c, post) ∧
      c.content = .items es ∧ c.id = p.chunk_identifier ∧
      es[p.index]? = some e := by
  obtain ⟨pre, c, post, es, h1, h2, h3, h4⟩ := mem_itemsWithPos h
  have hnodup := hwf.1
  rw [h1] at hnodup
  simp only [List.map_append, List.map_cons] at hnodup
  have hdisj := (List.nodup_append.1 hnodup).2.2
  have hne : ∀ c' ∈ pre, c'.id ≠ c.id := by
    intro c' hc' heq
    exact hdisj (List.mem_map.2 ⟨c', hc', heq⟩) (by simp)
  refine ⟨pre, c, post, es, ?_, h2, h3, h4⟩
  rw [h1, ← h3]
  exact splitAtChunk_of pre c post hne

theorem replace_item_at_ok {lc : LinkedChunk} (hwf : WF lc) {p : Position}
    {e : Event} (h : (p, e) ∈ itemsWithPos lc.chunks) (x : Event) :
    ∃ pre c post es,
      splitAtChunk p.chunk_identifier lc.chunks = some (pre, c, post) ∧
      c.content = .items es ∧ c.id = p.chunk_identifier ∧
      es[p.index]? = some e ∧
      lc.replace_item_at p x = .ok
        ({ chunks := pre ++ ⟨c.id, .items (es.set p.index x)⟩ :: post,
           nextId := lc.nextId },
         [.set ((flatItems pre).length + p.index) x]) := by
  obtain ⟨pre, c, post, es, hs, hc, hid, hg⟩ := mem_itemsWithPos_split hwf h
  have hlt : p.index < es.length := (List.getElem?_eq_some.1 hg).1
  refine ⟨pre, c, post, es, hs, hc, hid, hg, ?_⟩
  unfold LinkedChunk.replace_item_at
  rw [hs]
  simp [hc, hlt]

theorem remove_item_at_keep_ok {lc : LinkedChunk} (hwf : WF lc)
    {p : Position} {e : Event} (h : (p, e) ∈ itemsWithPos lc.chunks) :
    ∃ pre c post es,
      splitAtChunk p.chunk_identifier lc.chunks = some (pre, c, post) ∧
      c.content = .items es ∧ c.id = p.chunk_identifier ∧
      es[p.index]? = some e ∧
      lc.remove_item_at p .keep = .ok
        ({ chunks := pre ++ ⟨c.id, .items (es.eraseIdx p.index)⟩ :: post,
           nextId := lc.nextId },
         [.remove ((flatItems pre).length + p.index)]) := by
  obtain ⟨pre, c, post, es, hs, hc, hid, hg⟩ := mem_itemsWithPos_split hwf h
  have hlt : p.index < es.length := (List.getElem?_eq_some.1 hg).1
  refine ⟨pre, c, post, es, hs, hc, hid, hg, ?_⟩
  unfold LinkedChunk.remove_item_at
  rw [hs]
  simp [hc, hlt]

/-! ### Well-formedness preservation -/

theorem WF_of_map_id_eq {lc lc' : LinkedChunk} (hwf : WF lc)
    (hids : lc'.chunks.map Chunk.id = lc.chunks.map Chunk.id)
    (hnext : lc.nextId ≤ lc'.nextId) : WF lc' := by
  constructor
  · rw [hids]; exact hwf.1
  · intro c hc
    have hmem : c.id ∈ lc'.chunks.map Chunk.id := List.mem_map_of_mem _ hc
    rw [hids] at hmem
    obtain ⟨c', hc', heq⟩ := List.mem_map.1 hmem
    have := hwf.2 c' hc'
    omega

theorem WF_middle_replaced {lc : LinkedChunk} (hwf : WF lc)
    {pre post : List Chunk} {c : Chunk} (hsplit : lc.chunks = pre ++ c :: post)
    (cc : ChunkContent) :
    WF { chunks := pre ++ ⟨c.id, cc⟩ :: post, nextId := lc.nextId } := by
  refine WF_of_map_id_eq hwf ?_ (Nat.le_refl _)
  rw [hsplit]
  simp

theorem WF_middle_removed {lc : LinkedChunk} (hwf : WF lc)
    {pre post : List Chunk} {c : Chunk}
    (hsplit : lc.chunks = pre ++ c :: post) :
    WF { chunks := pre ++ post, nextId := lc.nextId } := by
  have hsub : (pre ++ post).Sublist lc.chunks := by
    rw [hsplit]
    exact List.Sublist.append_left (List.sublist_cons_self c post) pre
  constructor
  · exact hwf.1.sublist (hsub.map Chunk.id)
  · intro d hd
    exact hwf.2 d (hsub.mem hd)

theorem mkChunks_map_id (segs : List (List Event)) : ∀ (i : Nat),
    (mkChunks i segs).map Chunk.id = List.range' i segs.length := by
  induction segs with
  | nil => intro i; rfl
  | cons s ss ih => intro i; simp [mkChunks, ih, List.range'_succ]

theorem WF_append_mkChunks {lc : LinkedChunk} (hwf : WF lc)
    (segs : List (List Event)) :
    WF { chunks := lc.chunks ++ mkChunks lc.nextId segs,
         nextId := lc.nextId + segs.length } := by
  constructor
  · dsimp only
    rw [List.map_append, mkChunks_map_id, List.nodup_append]
    refine ⟨hwf.1, List.nodup_range' _ _, ?_⟩
    intro a ha hb
    obtain ⟨c, hc, heq⟩ := List.mem_map.1 ha
    have h1 := hwf.2 c hc
    have h2 := (List.mem_range'_1.1 hb).1
    omega
  · intro c hc
    dsimp only at hc ⊢
    rcases List.mem_append.1 hc with h | h
    · have := hwf.2 c h; omega
    · have hmem : c.id ∈ (mkChunks lc.nextId segs).map Chunk.id :=
        List.mem_map_of_mem _ h
      rw [mkChunks_map_id] at hmem
      have := (List.mem_range'_1.1 hmem).2
      omega

theorem WF_push_items_back {lc : LinkedChunk} (hwf : WF lc)
    (events : List Event) : WF (lc.push_items_back events).1 := by
  unfold LinkedChunk.push_items_back
  split
  · exact hwf
  · split
    · rename_i cid es hlast
      split
      · rename_i hcap
        split
        · exact hwf
        · rename_i seg rest hch
          have hdl : lc.chunks.dropLast ++ [(⟨cid, .items es⟩ : Chunk)] =
              lc.chunks :=
            List.dropLast_append_getLast? _ hlast
          have hwf2 : WF { chunks := lc.chunks.dropLast ++
                [(⟨cid, .items seg⟩ : Chunk)], nextId := lc.nextId } := by
            refine WF_of_map_id_eq hwf ?_ (Nat.le_refl _)
            conv_rhs => rw [← hdl]
            simp
          have hres := WF_append_mkChunks hwf2 rest
          simpa using hres
      · exact WF_append_mkChunks hwf (chunkify events)
    · exact WF_append_mkChunks hwf (chunkify events)

/-! ### Replay correctness of the primitives: applying the emitted diffs
to the flat sequence before the mutation yields the flat sequence after
it. -/

theorem push_items_back_replay (lc : LinkedChunk) (events : List Event) :
    flatItems (lc.push_items_back events).1.chunks =
      applyDiffs (flatItems lc.chunks) (lc.push_items_back events).2 := by
  unfold LinkedChunk.push_items_back
  split
  · simp [applyDiffs]
  · rename_i hev
    split
    · rename_i cid es hlast
      split
      · rename_i hcap
        split
        · simp [applyDiffs]
        · rename_i seg rest hch
          have hdl : lc.chunks.dropLast ++ [(⟨cid, .items es⟩ : Chunk)] =
              lc.chunks :=
            List.dropLast_append_getLast? _ hlast
          have hflat : flatItems lc.chunks =
              flatItems lc.chunks.dropLast ++ es := by
            conv_lhs => rw [← hdl]
            simp [flatItems_append, flatItems, Chunk.items]
          have hjoin : seg ++ rest.flatten = es ++ events := by
            have hfl := chunkify_flatten (es ++ events)
            rw [hch] at hfl
            simpa using hfl
          dsimp only
          rw [flatItems_append]
          simp only [flatItems, Chunk.items, flatItems_mkChunks, hflat,
            applyDiffs, List.foldl_cons, List.foldl_nil, applyDiff]
          rw [hjoin]
          simp [List.append_assoc]
      · dsimp only
        rw [flatItems_append, flatItems_mkChunks, chunkify_flatten]
        simp [applyDiffs, applyDiff]
    · dsimp only
      rw [flatItems_append, flatItems_mkChunks, chunkify_flatten]
      simp [applyDiffs, applyDiff]

theorem push_gap_back_replay {lc : LinkedChunk} {gap : Gap}
    {r : LinkedChunk × List VectorDiff} (h : lc.push_gap_back gap = .ok r) :
    flatItems r.1.chunks = applyDiffs (flatItems lc.chunks) r.2 := by
  unfold LinkedChunk.push_gap_back at h
  split at h
  · cases h
  · cases h
    simp [flatItems_append, flatItems, Chunk.items, applyDiffs]

theorem insert_items_at_replay {lc : LinkedChunk} {events : List Event}
    {pos : Position} {r : LinkedChunk × List VectorDiff}
    (h : lc.insert_items_at events pos = .ok r) :
    flatItems r.1.chunks = applyDiffs (flatItems lc.chunks) r.2 := by
  unfold LinkedChunk.insert_items_at at h
  split at h
  · cases h
  · rename_i pre c post hs
    obtain ⟨cid0, cc⟩ := c
    split at h
    · cases h
    · rename_i es heq
      simp only at heq
      subst heq
      split at h
      · cases h
      · rename_i hidx
        split at h
        · cases h
          simp [applyDiffs]
        · rename_i hev
          split at h
          · cases h
            simp [applyDiffs]
          · rename_i seg rest hch
            cases h
            obtain ⟨hchunks, hcid, hpre⟩ := splitAtChunk_some hs
            have hidx' : pos.index ≤ es.length := Nat.le_of_not_lt
              (by simpa using hidx)
            have hjoin : seg ++ rest.flatten =
                es.take pos.index ++ events ++ es.drop pos.index := by
              have hfl := chunkify_flatten
                (es.take pos.index ++ events ++ es.drop pos.index)
              rw [hch] at hfl
              simpa using hfl
            have hflat : flatItems lc.chunks =
                (flatItems pre ++ es.take pos.index) ++
                  (es.drop pos.index ++ flatItems post) := by
              rw [hchunks, flatItems_append]
              simp only [flatItems, Chunk.items]
              conv_lhs => rw [← List.take_append_drop pos.index es]
              simp only [List.append_assoc]
            have hlen : (flatItems pre ++ es.take pos.index).length =
                (flatItems pre).length + pos.index := by
              simp [List.length_take, Nat.min_eq_left hidx']
            dsimp only
            rw [flatItems_append, flatItems_append]
            simp only [flatItems, Chunk.items, flatItems_mkChunks]
            rw [hflat, ← hlen, applyDiffs_emitItems, hjoin]
            simp [List.append_assoc]

theorem insert_gap_at_replay {lc : LinkedChunk} {gap : Gap}
    {pos : Position} {r : LinkedChunk × List VectorDiff}
    (h : lc.insert_gap_at gap pos = .ok r) :
    flatItems r.1.chunks = applyDiffs (flatItems lc.chunks) r.2 := by
  unfold LinkedChunk.insert_gap_at at h
  split at h
  · cases h
  · rename_i pre c post hs
    obtain ⟨cid0, cc⟩ := c
    split at h
    · cases h
    · rename_i es heq
      simp only at heq
      subst heq
      split at h
      · cases h
      · rename_i hidx
        obtain ⟨hchunks, hcid, hpre⟩ := splitAtChunk_some hs
        split at h
        · split at h
          · cases h
          · cases h
            dsimp only
            rw [hchunks, flatItems_append, flatItems_append]
            simp [flatItems, Chunk.items, applyDiffs]
        · cases h
          dsimp only
          rw [hchunks, flatItems_append, flatItems_append]
          simp only [flatItems, Chunk.items, applyDiffs, List.foldl_nil]
          conv_rhs => rw [← List.take_append_drop pos.index es]
          simp only [List.append_assoc, List.nil_append]

theorem remove_gap_at_replay {lc : LinkedChunk} {cid : Nat}
    {r : LinkedChunk × List VectorDiff × Option Position}
    (h : lc.remove_gap_at cid = .ok r) :
    flatItems r.1.chunks = applyDiffs (flatItems lc.chunks) r.2.1 := by
  unfold LinkedChunk.remove_gap_at at h
  split at h
  · cases h
  · rename_i pre c post hs
    obtain ⟨cid0, cc⟩ := c
    split at h
    · cases h
    · rename_i g heq
      simp only at heq
      subst heq
      cases h
      obtain ⟨hchunks, hcid, hpre⟩ := splitAtChunk_some hs
      dsimp only
      rw [hchunks, flatItems_append, flatItems_append]
      simp [flatItems, Chunk.items, applyDiffs]

theorem replace_gap_at_replay {lc : LinkedChunk} {events : List Event}
    {cid : Nat} {r : LinkedChunk × List VectorDiff × Position}
    (h : lc.replace_gap_at events cid = .ok r) :
    flatItems r.1.chunks = applyDiffs (flatItems lc.chunks) r.2.1 := by
  unfold LinkedChunk.replace_gap_at at h
  split at h
  · cases h
  · rename_i pre c post hs
    obtain ⟨cid0, cc⟩ := c
    split at h
    · cases h
    · rename_i g heq
      simp only at heq
      subst heq
      split at h
      · cases h
      · rename_i hev
        cases h
        obtain ⟨hchunks, hcid, hpre⟩ := splitAtChunk_some hs
        have hflat : flatItems lc.chunks =
            flatItems pre ++ flatItems post := by
          rw [hchunks, flatItems_append]
          simp [flatItems, Chunk.items]
        dsimp only
        rw [flatItems_append, flatItems_append, flatItems_mkChunks,
          chunkify_flatten, hflat, applyDiffs_emitItems]

theorem replace_item_at_replay {lc : LinkedChunk} {pos : Position}
    {item : Event} {r : LinkedChunk × List VectorDiff}
    (h : lc.replace_item_at pos item = .ok r) :
    flatItems r.1.chunks = applyDiffs (flatItems lc.chunks) r.2 := by
  unfold LinkedChunk.replace_item_at at h
  split at h
  · cases h
  · rename_i pre c post hs
    obtain ⟨cid0, cc⟩ := c
    split at h
    · cases h
    · rename_i es heq
      simp only at heq
      subst heq
      split at h
      · rename_i hlt
        cases h
        obtain ⟨hchunks, hcid, hpre⟩ := splitAtChunk_some hs
        dsimp only
        rw [hchunks, flatItems_append, flatItems_append]
        simp only [flatItems, Chunk.items, applyDiffs, List.foldl_cons,
          List.foldl_nil, applyDiff]
        rw [List.set_append_right _ _
          (by omega : (flatItems pre).length ≤
            (flatItems pre).length + pos.index)]
        rw [Nat.add_sub_cancel_left]
        rw [List.set_append_left _ _ hlt]
      · cases h

theorem remove_item_at_replay {lc : LinkedChunk} {pos : Position}
    {policy : EmptyChunk} {r : LinkedChunk × List VectorDiff}
    (h : lc.remove_item_at pos policy = .ok r) :
    flatItems r.1.chunks = applyDiffs (flatItems lc.chunks) r.2 := by
  unfold LinkedChunk.remove_item_at at h
  split at h
  · cases h
  · rename_i pre c post hs
    obtain ⟨cid0, cc⟩ := c
    split at h
    · cases h
    · rename_i es heq
      simp only at heq
      subst heq
      split at h
      · rename_i hlt
        obtain ⟨hchunks, hcid, hpre⟩ := splitAtChunk_some hs
        have key : applyDiffs (flatItems lc.chunks)
            [.remove ((flatItems pre).length + pos.index)] =
            flatItems pre ++ (es.eraseIdx pos.index ++ flatItems post) := by
          simp only [applyDiffs, List.foldl_cons, List.foldl_nil, applyDiff]
          rw [hchunks, flatItems_append]
          simp only [flatItems, Chunk.items]
          rw [List.eraseIdx_append_of_length_le
            (by omega : (flatItems pre).length ≤
              (flatItems pre).length + pos.index)]
          rw [Nat.add_sub_cancel_left]
          rw [List.eraseIdx_append_of_lt_length hlt]
        split at h
        · rename_i hempty
          split at h
          · cases h
          · cases h
            dsimp only
            rw [flatItems_append, key, hempty.1]
            simp
        · cases h
          dsimp only
          rw [flatItems_append, key]
          simp [flatItems, Chunk.items]
      · cases h

theorem clear_replay (lc : LinkedChunk) :
    flatItems lc.clear.1.chunks = applyDiffs (flatItems lc.chunks)
      lc.clear.2 := by
  simp [LinkedChunk.clear, flatItems, Chunk.items, applyDiffs, applyDiff]

theorem WF_empty : WF LinkedChunk.empty := by
  constructor
  · simp [LinkedChunk.empty]
  · intro c hc
    simp only [LinkedChunk.empty, List.mem_singleton] at hc
    simp [hc, LinkedChunk.empty]

/-! ### The replay invariant at the `RoomEvents` level -/

theorem stepOK_refl (re : RoomEvents) : StepOK re re :=
  ⟨[], by simp, by simp [applyDiffs]⟩

theorem stepOK_trans {a b c : RoomEvents} (h1 : StepOK a b)
    (h2 : StepOK b c) : StepOK a c := by
  obtain ⟨d1, hp1, hf1⟩ := h1
  obtain ⟨d2, hp2, hf2⟩ := h2
  refine ⟨d1 ++ d2, by simp [hp2, hp1], ?_⟩
  rw [applyDiffs_append, ← hf1, hf2]

theorem stepOK_mk {re : RoomEvents} {lc' : LinkedChunk} {d : List VectorDiff}
    (h : flatItems lc'.chunks = applyDiffs (flatItems re.chunks.chunks) d) :
    StepOK re { chunks := lc', pending := re.pending ++ d } :=
  ⟨d, rfl, h⟩

theorem stepOK_push_events (re : RoomEvents) (evs : List Event) :
    StepOK re (re.push_events evs) :=
  stepOK_mk (push_items_back_replay re.chunks evs)

theorem stepOK_push_gap (re : RoomEvents) (g : Gap) :
    StepOK re (re.push_gap g) := by
  unfold RoomEvents.push_gap
  split
  · rename_i r hr
    exact stepOK_mk (push_gap_back_replay hr)
  · exact stepOK_refl re

theorem stepOK_insert_events_at {re : RoomEvents} {evs : List Event}
    {pos : Position} {re' : RoomEvents}
    (h : re.insert_events_at evs pos = .ok re') : StepOK re re' := by
  unfold RoomEvents.insert_events_at at h
  split at h
  · rename_i r hr
    cases h
    exact stepOK_mk (insert_items_at_replay hr)
  · cases h

theorem stepOK_insert_gap_at {re : RoomEvents} {g : Gap} {pos : Position}
    {re' : RoomEvents} (h : re.insert_gap_at g pos = .ok re') :
    StepOK re re' := by
  unfold RoomEvents.insert_gap_at at h
  split at h
  · rename_i r hr
    cases h
    exact stepOK_mk (insert_gap_at_replay hr)
  · cases h

theorem stepOK_remove_gap_at {re : RoomEvents} {cid : Nat}
    {rp : RoomEvents × Option Position} (h : re.remove_gap_at cid = .ok rp) :
    StepOK re rp.1 := by
  unfold RoomEvents.remove_gap_at at h
  split at h
  · rename_i r hr
    cases h
    exact stepOK_mk (remove_gap_at_replay hr)
  · cases h

theorem stepOK_replace_gap_at {re : RoomEvents} {evs : List Event}
    {cid : Nat} {rp : RoomEvents × Option Position}
    (h : re.replace_gap_at evs cid = .ok rp) : StepOK re rp.1 := by
  unfold RoomEvents.replace_gap_at at h
  split at h
  · exact stepOK_remove_gap_at h
  · split at h
    · rename_i r hr
      cases h
      exact stepOK_mk (replace_gap_at_replay hr)
    · cases h

theorem stepOK_removeByIdStep {re : RoomEvents} {event_id : EventId}
    {re' : RoomEvents} (h : re.removeByIdStep event_id = some re') :
    StepOK re re' := by
  unfold RoomEvents.removeByIdStep at h
  split at h
  · cases h; exact stepOK_refl _
  · split at h
    · rename_i r hr
      cases h
      exact stepOK_mk (remove_item_at_replay hr)
    · cases h

theorem stepOK_remove_events_by_id {ids : List EventId} :
    ∀ {re re' : RoomEvents}, re.remove_events_by_id ids = some re' →
    StepOK re re' := by
  induction ids with
  | nil => intro re re' h; cases h; exact stepOK_refl _
  | cons i rest ih =>
    intro re re' h
    unfold RoomEvents.remove_events_by_id at h
    split at h
    · rename_i re1 h1
      exact stepOK_trans (stepOK_removeByIdStep h1) (ih h)
    · cases h

theorem stepOK_removeAndUpdateStep {re : RoomEvents} {event_id : EventId}
    {position : Position} {rp : RoomEvents × Position}
    (h : re.removeAndUpdateStep event_id position = some rp) :
    StepOK re rp.1 := by
  unfold RoomEvents.removeAndUpdateStep at h
  split at h
  · cases h; exact stepOK_refl _
  · split at h
    · rename_i r hr
      cases h
      exact stepOK_mk (remove_item_at_replay hr)
    · cases h

theorem stepOK_remove_events_and_update {ids : List EventId} :
    ∀ {re : RoomEvents} {position : Position} {rp : RoomEvents × Position},
    re.remove_events_and_update_insert_position ids position = some rp →
    StepOK re rp.1 := by
  induction ids with
  | nil => intro re position rp h; cases h; exact stepOK_refl _
  | cons i rest ih =>
    intro re position rp h
    unfold RoomEvents.remove_events_and_update_insert_position at h
    split at h
    · rename_i rp1 h1
      exact stepOK_trans (stepOK_removeAndUpdateStep h1) (ih h)
    · cases h

theorem stepOK_maybe_apply {re : RoomEvents} {rv : RoomVersionId}
    {e : Event} {re' : RoomEvents}
    (h : re.maybe_apply_new_redaction rv e = some re') : StepOK re re' := by
  unfold RoomEvents.maybe_apply_new_redaction at h
  split at h
  · split at h
    · split at h
      · cases h; exact stepOK_refl _
      · split at h
        · cases h; exact stepOK_refl _
        · split at h
          · cases h; exact stepOK_refl _
          · split at h
            · cases h; exact stepOK_refl _
            · split at h
              · rename_i r hr
                cases h
                exact stepOK_mk (replace_item_at_replay hr)
              · cases h
    · cases h; exact stepOK_refl _
  · cases h; exact stepOK_refl _

theorem stepOK_on_new_events {evs : List Event} :
    ∀ {re re' : RoomEvents} {rv : RoomVersionId},
    re.on_new_events rv evs = some re' → StepOK re re' := by
  induction evs with
  | nil => intro re re' rv h; cases h; exact stepOK_refl _
  | cons e rest ih =>
    intro re re' rv h
    unfold RoomEvents.on_new_events at h
    split at h
    · rename_i re1 h1
      exact stepOK_trans (stepOK_maybe_apply h1) (ih h)
    · cases h

theorem stepOK_reset (re : RoomEvents) : StepOK re re.reset :=
  stepOK_mk (clear_replay re.chunks)

theorem stepOK_applyMutation {re : RoomEvents} {m : Mutation}
    {re' : RoomEvents} (h : applyMutation re m = some re') :
    StepOK re re' := by
  cases m with
  | pushEvents evs =>
    simp only [applyMutation, Option.some.injEq] at h
    exact h ▸ stepOK_push_events re evs
  | pushGap g =>
    simp only [applyMutation, Option.some.injEq] at h
    exact h ▸ stepOK_push_gap re g
  | insertEventsAt evs pos =>
    simp only [applyMutation] at h
    split at h
    · rename_i re1 h1
      cases h
      exact stepOK_insert_events_at h1
    · cases h; exact stepOK_refl _
  | insertGapAt g pos =>
    simp only [applyMutation] at h
    split at h
    · rename_i re1 h1
      cases h
      exact stepOK_insert_gap_at h1
    · cases h; exact stepOK_refl _
  | removeGapAt cid =>
    simp only [applyMutation] at h
    split at h
    · rename_i rp h1
      cases h
      exact stepOK_remove_gap_at h1
    · cases h; exact stepOK_refl _
  | replaceGapAt evs cid =>
    simp only [applyMutation] at h
    split at h
    · rename_i rp h1
      cases h
      exact stepOK_replace_gap_at h1
    · cases h; exact stepOK_refl _
  | removeEventsById ids =>
    exact stepOK_remove_events_by_id h
  | removeEventsAndUpdate ids pos =>
    simp only [applyMutation, Option.map_eq_some'] at h
    obtain ⟨rp, hrp, hre⟩ := h
    exact hre ▸ stepOK_remove_events_and_update hrp
  | onNewEvents rv evs =>
    exact stepOK_on_new_events h
  | reset =>
    simp only [applyMutation, Option.some.injEq] at h
    exact h ▸ stepOK_reset re

theorem replays_of_step {re re' : RoomEvents} (h : Replays re)
    (hs : StepOK re re') : Replays re' := by
  obtain ⟨d, hp, hf⟩ := hs
  unfold Replays at h ⊢
  rw [hp, applyDiffs_append, h, ← hf]

theorem replays_new : Replays RoomEvents.new := by
  simp [Replays, RoomEvents.new, applyDiffs, LinkedChunk.empty, flatItems,
    Chunk.items]

theorem replays_applyMutations : ∀ {muts : List Mutation}
    {re re' : RoomEvents}, applyMutations re muts = some re' →
    Replays re → Replays re' := by
  intro muts
  induction muts with
  | nil => intro re re' h hr; cases h; exact hr
  | cons m ms ih =>
    intro re re' h hr
    unfold applyMutations at h
    split at h
    · rename_i re1 h1
      exact ih h (replays_of_step hr (stepOK_applyMutation h1))
    · cases h

/-! ### Scan stability under in-place replacement (for redaction
idempotence) -/

theorem chunkify_of_le {es : List Event} (hne : es ≠ [])
    (hlen : es.length ≤ DEFAULT_CHUNK_CAPACITY) : chunkify es = [es] := by
  rw [chunkify_cons es hne, List.take_of_length_le hlen,
    List.drop_eq_nil_of_le hlen]
  simp [chunkify, chunkifyF]

theorem find?_itemsWithPosAux_set {q : Position × Event → Bool} {x : Event} :
    ∀ {es : List Event} {i k cid : Nat} {T : Event},
    (itemsWithPosAux cid i es).find? q = some (⟨cid, i + k⟩, T) →
    q (⟨cid, i + k⟩, x) = true →
    (itemsWithPosAux cid i (es.set k x)).find? q =
      some (⟨cid, i + k⟩, x) := by
  intro es
  induction es with
  | nil => intro i k cid T h hq; simp [itemsWithPosAux] at h
  | cons y ys ih =>
    intro i k cid T h hq
    by_cases hy : q (⟨cid, i⟩, y) = true
    · rw [itemsWithPosAux, List.find?_cons_of_pos _ hy] at h
      injection h with h
      have h1 : i = i + k := congrArg (fun z : Position × Event => z.1.index) h
      have hk : k = 0 := by omega
      subst hk
      rw [List.set_cons_zero, itemsWithPosAux,
        List.find?_cons_of_pos _ (by simpa using hq)]
      simp
    · have hy' : ¬ q (⟨cid, i⟩, y) = true := hy
      rw [itemsWithPosAux, List.find?_cons_of_neg _ (by simpa using hy')] at h
      have hmem := List.mem_of_find?_eq_some h
      obtain ⟨j, hpj, hje⟩ := mem_itemsWithPosAux.1 hmem
      have h1 : i + k = i + 1 + j := congrArg Position.index hpj
      have hk : k = j + 1 := by omega
      subst hk
      have harith : i + (j + 1) = i + 1 + j := by omega
      rw [List.set_cons_succ, itemsWithPosAux,
        List.find?_cons_of_neg _ (by simpa using hy'), harith]
      rw [harith] at hq
      exact ih (h1 ▸ h) hq

theorem find?_after_replace {lc : LinkedChunk} (hwf : WF lc)
    {tid : EventId} {pe : Position × Event}
    (hfind : (itemsWithPos lc.chunks).find? (matchesId tid) = some pe)
    {x : Event} (hid : x.eventId = pe.2.eventId)
    {pre post : List Chunk} {cid0 : Nat} {es : List Event}
    (hsplit : splitAtChunk pe.1.chunk_identifier lc.chunks =
      some (pre, ⟨cid0, .items es⟩, post)) :
    (itemsWithPos (pre ++ ⟨cid0, .items (es.set pe.1.index x)⟩ :: post)).find?
      (matchesId tid) = some (pe.1, x) := by
  obtain ⟨⟨pc, pi⟩, pev⟩ := pe
  simp only at hfind hid hsplit ⊢
  obtain ⟨hchunks, hcid, hpre⟩ := splitAtChunk_some hsplit
  simp only at hcid
  subst hcid
  have hq : matchesId tid (⟨cid0, pi⟩, pev) = true := List.find?_some hfind
  have hqx : matchesId tid ((⟨cid0, pi⟩ : Position), x) = true := by
    simp only [matchesId] at hq ⊢
    rw [hid]
    exact hq
  have hlist : itemsWithPos lc.chunks =
      itemsWithPos pre ++
        (itemsWithPosAux cid0 0 es ++ itemsWithPos post) := by
    rw [hchunks, itemsWithPos_append]
    simp [itemsWithPos, Chunk.items]
  have hA : (itemsWithPos pre).find? (matchesId tid) = none := by
    cases hfa : (itemsWithPos pre).find? (matchesId tid) with
    | none => rfl
    | some a =>
      exfalso
      have hmem := List.mem_of_find?_eq_some hfa
      have ha : a = (⟨cid0, pi⟩, pev) := by
        rw [hlist, List.find?_append, hfa] at hfind
        simpa using hfind
      subst ha
      obtain ⟨p2, c2, post2, es2, hh1, hh2, hh3, hh4⟩ := mem_itemsWithPos hmem
      refine hpre c2 ?_ hh3
      rw [hh1]
      simp
  have hMB : (itemsWithPosAux cid0 0 es ++ itemsWithPos post).find?
      (matchesId tid) = some (⟨cid0, pi⟩, pev) := by
    rw [hlist, List.find?_append, hA] at hfind
    simpa using hfind
  have hpostids : cid0 ∉ post.map Chunk.id := by
    have hnodup := hwf.1
    rw [hchunks] at hnodup
    simp only [List.map_append, List.map_cons] at hnodup
    have hcp := (List.nodup_append.1 hnodup).2.1
    exact (List.nodup_cons.1 hcp).1
  have hM : (itemsWithPosAux cid0 0 es).find? (matchesId tid) =
      some (⟨cid0, pi⟩, pev) := by
    cases hfm : (itemsWithPosAux cid0 0 es).find? (matchesId tid) with
    | some m =>
      rw [List.find?_append, hfm] at hMB
      simpa using hMB
    | none =>
      exfalso
      rw [List.find?_append, hfm] at hMB
      simp only [Option.none_or] at hMB
      have hmem := List.mem_of_find?_eq_some hMB
      obtain ⟨p2, c2, post2, es2, hh1, hh2, hh3, hh4⟩ := mem_itemsWithPos hmem
      apply hpostids
      simp only at hh3
      rw [← hh3]
      rw [hh1]
      simp
  have happly := @find?_itemsWithPosAux_set (matchesId tid) x es 0 pi cid0
    pev (by simpa using hM) (by simpa using hqx)
  rw [itemsWithPos_append]
  simp only [itemsWithPos, Chunk.items]
  rw [List.find?_append, hA]
  simp only [Option.none_or]
  rw [List.find?_append]
  rw [show (itemsWithPosAux cid0 0 (es.set pi x)).find? (matchesId tid) =
      some (⟨cid0, pi⟩, x) from by simpa using happly]
  rfl

/-! ### Totality and no-op shape of the redaction path -/

theorem maybe_apply_some_wf {re : RoomEvents} {rv : RoomVersionId}
    {e : Event} (hwf : WF re.chunks) :
    ∃ re', re.maybe_apply_new_redaction rv e = some re' ∧ WF re'.chunks := by
  unfold RoomEvents.maybe_apply_new_redaction
  by_cases htype : e.raw.typeIsRedaction = true
  · rw [if_pos htype]
    cases hdes : e.raw.deser with
    | none => exact ⟨re, rfl, hwf⟩
    | some v =>
      cases v with
      | otherMessageLike oc => exact ⟨re, rfl, hwf⟩
      | state oc => exact ⟨re, rfl, hwf⟩
      | roomRedaction top content oc =>
        dsimp only
        cases hred : TimelineView.redacts (.roomRedaction top content oc) rv
          with
        | none => exact ⟨re, rfl, hwf⟩
        | some tid =>
          dsimp only
          cases hf : re.events.find? (matchesId tid) with
          | none => exact ⟨re, rfl, hwf⟩
          | some pe =>
            dsimp only
            by_cases hguard : ((pe.2.raw.deser.map
                fun v => !v.originalContentIsSome).getD false) = true
            · simp only [hguard]
              exact ⟨re, by simp, hwf⟩
            · simp only [Bool.not_eq_true] at hguard
              simp only [hguard]
              cases hap : apply_redaction pe.2.raw e.raw rv with
              | none => exact ⟨re, rfl, hwf⟩
              | some redacted =>
                dsimp only
                have hmem : (pe.1, pe.2) ∈ itemsWithPos re.chunks.chunks :=
                  List.mem_of_find?_eq_some hf
                obtain ⟨pre, c, post, es, hs, hc, hcid, hg, hok⟩ :=
                  replace_item_at_ok hwf hmem (pe.2.replace_raw redacted)
                rw [hok]
                refine ⟨_, rfl, ?_⟩
                obtain ⟨hchunks, _, _⟩ := splitAtChunk_some hs
                exact WF_middle_replaced hwf hchunks _
  · rw [if_neg htype]
    exact ⟨re, rfl, hwf⟩

theorem on_new_events_some {evs : List Event} :
    ∀ {re : RoomEvents} {rv : RoomVersionId}, WF re.chunks →
    ∃ re', re.on_new_events rv evs = some re' ∧ WF re'.chunks := by
  induction evs with
  | nil => intro re rv hwf; exact ⟨re, rfl, hwf⟩
  | cons e rest ih =>
    intro re rv hwf
    obtain ⟨re1, h1, hwf1⟩ := @maybe_apply_some_wf re rv e hwf
    obtain ⟨re', h2, hwf'⟩ := @ih re1 rv hwf1
    refine ⟨re', ?_, hwf'⟩
    unfold RoomEvents.on_new_events
    rw [h1]
    exact h2

theorem maybe_apply_no_target_id {re : RoomEvents} {rv : RoomVersionId}
    {e : Event} {top content : Option EventId} {oc : Bool}
    (hdes : e.raw.deser = some (.roomRedaction top content oc))
    (hred : TimelineView.redacts (.roomRedaction top content oc) rv = none) :
    re.maybe_apply_new_redaction rv e = some re := by
  unfold RoomEvents.maybe_apply_new_redaction
  by_cases htype : e.raw.typeIsRedaction = true
  · rw [if_pos htype]
    simp only [hdes, hred]
  · rw [if_neg htype]

theorem maybe_apply_target_missing {re : RoomEvents} {rv : RoomVersionId}
    {e : Event} {top content : Option EventId} {oc : Bool} {tid : EventId}
    (hdes : e.raw.deser = some (.roomRedaction top content oc))
    (hred : TimelineView.redacts (.roomRedaction top content oc) rv =
      some tid)
    (habs : re.events.find? (matchesId tid) = none) :
    re.maybe_apply_new_redaction rv e = some re := by
  unfold RoomEvents.maybe_apply_new_redaction
  by_cases htype : e.raw.typeIsRedaction = true
  · rw [if_pos htype]
    simp only [hdes, hred, habs]
  · rw [if_neg htype]

theorem maybe_apply_already_redacted {re : RoomEvents} {rv : RoomVersionId}
    {e : Event} {top content : Option EventId} {oc : Bool} {tid : EventId}
    {pe : Position × Event} {v : TimelineView}
    (hdes : e.raw.deser = some (.roomRedaction top content oc))
    (hred : TimelineView.redacts (.roomRedaction top content oc) rv =
      some tid)
    (hf : re.events.find? (matchesId tid) = some pe)
    (hv : pe.2.raw.deser = some v) (hoc : v.originalContentIsSome = false) :
    re.maybe_apply_new_redaction rv e = some re := by
  unfold RoomEvents.maybe_apply_new_redaction
  by_cases htype : e.raw.typeIsRedaction = true
  · rw [if_pos htype]
    simp only [hdes, hred, hf]
    simp [hv, hoc]
  · rw [if_neg htype]

theorem maybe_apply_apply_none {re : RoomEvents} {rv : RoomVersionId}
    {e : Event} {top content : Option EventId} {oc : Bool} {tid : EventId}
    {pe : Position × Event}
    (hdes : e.raw.deser = some (.roomRedaction top content oc))
    (hred : TimelineView.redacts (.roomRedaction top content oc) rv =
      some tid)
    (hf : re.events.find? (matchesId tid) = some pe)
    (hguard : (pe.2.raw.deser.map
      fun v => !v.originalContentIsSome).getD false = false)
    (hap : apply_redaction pe.2.raw e.raw rv = none) :
    re.maybe_apply_new_redaction rv e = some re := by
  unfold RoomEvents.maybe_apply_new_redaction
  by_cases htype : e.raw.typeIsRedaction = true
  · rw [if_pos htype]
    simp only [hdes, hred, hf, hguard, hap]
    simp
  · rw [if_neg htype]

theorem maybe_apply_not_redaction_type {re : RoomEvents}
    {rv : RoomVersionId} {e : Event}
    (htype : e.raw.typeIsRedaction = false) :
    re.maybe_apply_new_redaction rv e = some re := by
  unfold RoomEvents.maybe_apply_new_redaction
  rw [if_neg (by simp [htype])]

theorem maybe_apply_not_deser_redaction {re : RoomEvents}
    {rv : RoomVersionId} {e : Event}
    (hdes : ∀ top content oc,
      e.raw.deser ≠ some (.roomRedaction top content oc)) :
    re.maybe_apply_new_redaction rv e = some re := by
  unfold RoomEvents.maybe_apply_new_redaction
  by_cases htype : e.raw.typeIsRedaction = true
  · rw [if_pos htype]
    cases hd : e.raw.deser with
    | none => rfl
    | some v =>
      cases v with
      | roomRedaction top content oc => exact absurd hd (hdes top content oc)
      | otherMessageLike oc => rfl
      | state oc => rfl
  · rw [if_neg htype]

/-- Applying `maybe_apply_new_redaction` twice with the same event is
idempotent: the second application performs no mutation. -/
theorem maybe_apply_idem {re re1 : RoomEvents} {rv : RoomVersionId}
    {e : Event} (hwf : WF re.chunks)
    (h : re.maybe_apply_new_redaction rv e = some re1) :
    re1.maybe_apply_new_redaction rv e = some re1 := by
  by_cases htype : e.raw.typeIsRedaction = true
  case neg =>
    have hfalse : e.raw.typeIsRedaction = false := by
      revert htype; cases e.raw.typeIsRedaction <;> simp
    have hno : re.maybe_apply_new_redaction rv e = some re :=
      maybe_apply_not_redaction_type hfalse
    rw [hno] at h
    injection h with h
    subst h
    exact maybe_apply_not_redaction_type hfalse
  case pos =>
    cases hdes : e.raw.deser with
    | none =>
      have hne : ∀ top content oc,
          e.raw.deser ≠ some (.roomRedaction top content oc) := by
        simp [hdes]
      have hno : re.maybe_apply_new_redaction rv e = some re :=
        maybe_apply_not_deser_redaction hne
      rw [hno] at h
      injection h with h
      subst h
      exact maybe_apply_not_deser_redaction hne
    | some v =>
      cases v with
      | otherMessageLike oc =>
        have hne : ∀ top content oc',
            e.raw.deser ≠ some (.roomRedaction top content oc') := by
          simp [hdes]
        have hno : re.maybe_apply_new_redaction rv e = some re :=
        maybe_apply_not_deser_redaction hne
        rw [hno] at h
        injection h with h
        subst h
        exact maybe_apply_not_deser_redaction hne
      | state oc =>
        have hne : ∀ top content oc',
            e.raw.deser ≠ some (.roomRedaction top content oc') := by
          simp [hdes]
        have hno : re.maybe_apply_new_redaction rv e = some re :=
        maybe_apply_not_deser_redaction hne
        rw [hno] at h
        injection h with h
        subst h
        exact maybe_apply_not_deser_redaction hne
      | roomRedaction top content oc =>
        cases hred : TimelineView.redacts (.roomRedaction top content oc) rv
          with
        | none =>
          have hno : re.maybe_apply_new_redaction rv e = some re :=
            maybe_apply_no_target_id hdes hred
          rw [hno] at h
          injection h with h
          subst h
          exact maybe_apply_no_target_id hdes hred
        | some tid =>
          cases hf : re.events.find? (matchesId tid) with
          | none =>
            have hno : re.maybe_apply_new_redaction rv e = some re :=
              maybe_apply_target_missing hdes hred hf
            rw [hno] at h
            injection h with h
            subst h
            exact maybe_apply_target_missing hdes hred hf
          | some pe =>
            by_cases hguard : ((pe.2.raw.deser.map
                fun v => !v.originalContentIsSome).getD false) = true
            · obtain ⟨w, hw, hwoc⟩ : ∃ w, pe.2.raw.deser = some w ∧
                  w.originalContentIsSome = false := by
                cases hpd : pe.2.raw.deser with
                | none => rw [hpd] at hguard; simp at hguard
                | some w =>
                  rw [hpd] at hguard
                  simp at hguard
                  exact ⟨w, rfl, hguard⟩
              have hno : re.maybe_apply_new_redaction rv e = some re :=
                maybe_apply_already_redacted hdes hred hf hw hwoc
              rw [hno] at h
              injection h with h
              subst h
              exact maybe_apply_already_redacted hdes hred hf hw hwoc
            · have hguard' : ((pe.2.raw.deser.map
                  fun v => !v.originalContentIsSome).getD false) = false := by
                revert hguard
                cases (pe.2.raw.deser.map
                  fun v => !v.originalContentIsSome).getD false <;> simp
              cases hap : apply_redaction pe.2.raw e.raw rv with
              | none =>
                have hno : re.maybe_apply_new_redaction rv e = some re :=
                  maybe_apply_apply_none hdes hred hf hguard' hap
                rw [hno] at h
                injection h with h
                subst h
                exact maybe_apply_apply_none hdes hred hf hguard' hap
              | some redacted =>
                -- the first application replaced the target in place
                have hmem : (pe.1, pe.2) ∈ itemsWithPos re.chunks.chunks :=
                  List.mem_of_find?_eq_some hf
                obtain ⟨pre, c, post, es, hs, hc, hcid, hg, hok⟩ :=
                  replace_item_at_ok hwf hmem (pe.2.replace_raw redacted)
                have hre1 : re1 = RoomEvents.mk
                    (LinkedChunk.mk
                      (pre ++ ⟨c.id, .items (es.set pe.1.index
                        (pe.2.replace_raw redacted))⟩ :: post)
                      re.chunks.nextId)
                    (re.pending ++ [.set ((flatItems pre).length +
                      pe.1.index) (pe.2.replace_raw redacted)]) := by
                  unfold RoomEvents.maybe_apply_new_redaction at h
                  rw [if_pos htype] at h
                  simp only [hdes, hred, hf, hguard', hap, hok] at h
                  simp at h
                  exact h.symm
                -- the raw payload after redaction
                have hra : pe.2.raw.redactionApplied = false := by
                  by_contra hcon
                  have : pe.2.raw.redactionApplied = true := by
                    revert hcon; cases pe.2.raw.redactionApplied <;> simp
                  unfold apply_redaction at hap
                  rw [if_pos this] at hap
                  cases hap
                have hredacted : redacted = RawValue.mk
                    pe.2.raw.typeIsRedaction
                    (pe.2.raw.deser.map fun v =>
                      match v with
                      | .roomRedaction t c _ => .roomRedaction t c false
                      | .otherMessageLike _ => .otherMessageLike false
                      | .state _ => .state false)
                    true := by
                  unfold apply_redaction at hap
                  rw [if_neg (by simp [hra])] at hap
                  injection hap with hap
                  exact hap.symm
                -- the second scan finds the replaced event at the same
                -- position
                have hcdestr : c = ⟨c.id, .items es⟩ := by
                  cases c with | mk i cc => simp_all
                have hsplit' : splitAtChunk pe.1.chunk_identifier
                    re.chunks.chunks = some (pre, ⟨c.id, .items es⟩, post) := by
                  rw [← hcdestr]; exact hs
                have hfind1 : (itemsWithPos re1.chunks.chunks).find?
                    (matchesId tid) =
                    some (pe.1, pe.2.replace_raw redacted) := by
                  rw [hre1]
                  exact find?_after_replace hwf hf
                    (show (pe.2.replace_raw redacted).eventId = pe.2.eventId
                      from rfl) hsplit'
                -- now evaluate the second application
                unfold RoomEvents.maybe_apply_new_redaction
                rw [if_pos htype]
                simp only [hdes, hred]
                rw [show re1.events.find? (matchesId tid) =
                    some (pe.1, pe.2.replace_raw redacted) from hfind1]
                cases hpd : pe.2.raw.deser with
                | some w =>
                  -- the replaced payload reports empty original content
                  have hguard2 : (((pe.2.replace_raw redacted).raw.deser.map
                      fun v => !v.originalContentIsSome).getD false) = true
                      := by
                    simp only [Event.replace_raw, hredacted, hpd]
                    cases w <;> simp [TimelineView.originalContentIsSome]
                  simp only [hguard2]
                  simp
                | none =>
                  -- the replaced payload still does not deserialize, but
                  -- `apply_redaction` reports it as already applied
                  have hguard2 : (((pe.2.replace_raw redacted).raw.deser.map
                      fun v => !v.originalContentIsSome).getD false) = false
                      := by
                    simp only [Event.replace_raw, hredacted, hpd]
                    simp
                  have hap2 : apply_redaction
                      (pe.2.replace_raw redacted).raw e.raw rv = none := by
                    unfold apply_redaction
                    rw [if_pos (by simp [Event.replace_raw, hredacted])]
                  simp only [hguard2, hap2]
                  simp

/-! ### The removal loops: skip, totality, and position preservation -/

theorem find?_matchesId_none {re : RoomEvents} {event_id : EventId}
    (habs : ∀ pe ∈ re.events, pe.2.eventId ≠ some event_id) :
    re.revents.find? (matchesId event_id) = none := by
  rw [List.find?_eq_none]
  intro pe hpe
  have hmem : pe ∈ re.events := by
    simpa [RoomEvents.revents, RoomEvents.events] using hpe
  simp only [matchesId, beq_iff_eq]
  exact habs pe hmem

theorem removeAndUpdateStep_skip {re : RoomEvents} {event_id : EventId}
    {position : Position}
    (habs : ∀ pe ∈ re.events, pe.2.eventId ≠ some event_id) :
    re.removeAndUpdateStep event_id position = some (re, position) := by
  unfold RoomEvents.removeAndUpdateStep
  rw [find?_matchesId_none habs]

theorem removeByIdStep_skip {re : RoomEvents} {event_id : EventId}
    (habs : ∀ pe ∈ re.events, pe.2.eventId ≠ some event_id) :
    re.removeByIdStep event_id = some re := by
  unfold RoomEvents.removeByIdStep
  rw [find?_matchesId_none habs]

theorem removeAndUpdateStep_found {re : RoomEvents} {event_id : EventId}
    {position : Position} {pe : Position × Event} (hwf : WF re.chunks)
    (hf : re.revents.find? (matchesId event_id) = some pe) :
    ∃ pre c post es,
      splitAtChunk pe.1.chunk_identifier re.chunks.chunks =
        some (pre, c, post) ∧ c.content = .items es ∧
      c.id = pe.1.chunk_identifier ∧ es[pe.1.index]? = some pe.2 ∧
      re.removeAndUpdateStep event_id position = some
        (RoomEvents.mk
          (LinkedChunk.mk
            (pre ++ ⟨c.id, .items (es.eraseIdx pe.1.index)⟩ :: post)
            re.chunks.nextId)
          (re.pending ++ [.remove ((flatItems pre).length + pe.1.index)]),
         RoomEvents.adjustPosition pe.1 position) := by
  have hmem : (pe.1, pe.2) ∈ itemsWithPos re.chunks.chunks := by
    have hm := List.mem_of_find?_eq_some hf
    simpa [RoomEvents.revents] using hm
  obtain ⟨pre, c, post, es, hs, hc, hcid, hg, hok⟩ :=
    remove_item_at_keep_ok hwf hmem
  refine ⟨pre, c, post, es, hs, hc, hcid, hg, ?_⟩
  unfold RoomEvents.removeAndUpdateStep
  rw [hf]
  simp only [hok]

/-- The heart of C2: one removal step keeps the maintained position
addressing the same item, provided that item does not carry the removed
id. -/
theorem removeAndUpdateStep_preserves {re : RoomEvents}
    {event_id : EventId} {position : Position} {X : Event}
    (hwf : WF re.chunks) (hX : (position, X) ∈ re.events)
    (hne : X.eventId ≠ some event_id) :
    ∃ rp, re.removeAndUpdateStep event_id position = some rp ∧
      WF rp.1.chunks ∧ (rp.2, X) ∈ rp.1.events := by
  cases hf : re.revents.find? (matchesId event_id) with
  | none =>
    refine ⟨(re, position), ?_, hwf, hX⟩
    unfold RoomEvents.removeAndUpdateStep
    rw [hf]
  | some pe =>
    obtain ⟨pre, c, post, es, hs, hc, hcid, hg, hstep⟩ :=
      @removeAndUpdateStep_found re event_id position pe hwf hf
    obtain ⟨hchunks, hcid2, hpre⟩ := splitAtChunk_some hs
    have hcdestr : c = ⟨c.id, .items es⟩ := by
      cases c with | mk i cc => simp_all
    refine ⟨_, hstep, WF_middle_replaced hwf hchunks _, ?_⟩
    have hqe : pe.2.eventId = some event_id :=
      matchesId_eq (List.find?_some hf)
    have hXne : X ≠ pe.2 := fun hcon => hne (hcon ▸ hqe)
    have hpostids : c.id ∉ post.map Chunk.id := by
      have hnodup := hwf.1
      rw [hchunks] at hnodup
      simp only [List.map_append, List.map_cons] at hnodup
      have hcp := (List.nodup_append.1 hnodup).2.1
      exact (List.nodup_cons.1 hcp).1
    have hlist : itemsWithPos re.chunks.chunks =
        itemsWithPos pre ++
          (itemsWithPosAux c.id 0 es ++ itemsWithPos post) := by
      conv_lhs => rw [hchunks, hcdestr]
      rw [itemsWithPos_append]
      simp [itemsWithPos, Chunk.items]
    have hlist' : itemsWithPos
        (pre ++ (⟨c.id, .items (es.eraseIdx pe.1.index)⟩ : Chunk) :: post) =
        itemsWithPos pre ++
          (itemsWithPosAux c.id 0 (es.eraseIdx pe.1.index) ++
            itemsWithPos post) := by
      rw [itemsWithPos_append]
      simp [itemsWithPos, Chunk.items]
    have hXmem : (position, X) ∈
        itemsWithPos pre ++
          (itemsWithPosAux c.id 0 es ++ itemsWithPos post) := by
      rw [← hlist]; exact hX
    show (RoomEvents.adjustPosition pe.1 position, X) ∈ _
    simp only [RoomEvents.events]
    rw [hlist']
    rw [List.mem_append, List.mem_append] at hXmem ⊢
    rcases hXmem with hA | hM | hB
    · -- the addressed item lives in an earlier chunk: nothing moves
      obtain ⟨p2, c2, post2, es2, hh1, hh2, hh3, hh4⟩ := mem_itemsWithPos hA
      have hdiff : pe.1.chunk_identifier ≠ position.chunk_identifier := by
        intro hcon
        refine hpre c2 ?_ (by rw [hh3, ← hcon])
        rw [hh1]; simp
      rw [show RoomEvents.adjustPosition pe.1 position = position from by
        simp [RoomEvents.adjustPosition, hdiff]]
      exact Or.inl hA
    · -- same chunk: the index shifts exactly as the code adjusts it
      obtain ⟨j, hpj, hje⟩ := mem_itemsWithPosAux.1 hM
      simp only [Nat.zero_add] at hpj
      have hsame : pe.1.chunk_identifier = position.chunk_identifier := by
        rw [hpj, ← hcid2]
      have hjne : j ≠ pe.1.index := by
        intro hcon
        rw [hcon, hg] at hje
        exact hXne (by injection hje with hje; exact hje.symm)
      rcases Nat.lt_or_ge pe.1.index j with hlt | hge
      · -- removal strictly before the position: shift left by one
        have hadj : RoomEvents.adjustPosition pe.1 position =
            ⟨c.id, j - 1⟩ := by
          simp [RoomEvents.adjustPosition, hsame, hpj,
            Position.decrement_index, hlt]
        rw [hadj]
        refine Or.inr (Or.inl (mem_itemsWithPosAux.2 ⟨j - 1, by simp, ?_⟩))
        rw [List.getElem?_eraseIdx_of_ge _ _ _ (by omega)]
        rw [show j - 1 + 1 = j from by omega]
        exact hje
      · -- removal at or after the position: unchanged
        have hjlt : j < pe.1.index := by omega
        have hadj : RoomEvents.adjustPosition pe.1 position = position := by
          simp [RoomEvents.adjustPosition, hsame, hpj, Nat.not_lt.2 hge]
        rw [hadj, hpj]
        refine Or.inr (Or.inl (mem_itemsWithPosAux.2 ⟨j, by simp, ?_⟩))
        rw [List.getElem?_eraseIdx_of_lt _ _ _ hjlt]
        exact hje
    · -- the addressed item lives in a later chunk: nothing moves
      obtain ⟨p2, c2, post2, es2, hh1, hh2, hh3, hh4⟩ := mem_itemsWithPos hB
      have hdiff : pe.1.chunk_identifier ≠ position.chunk_identifier := by
        intro hcon
        apply hpostids
        have hcc : c2.id = c.id := by rw [hh3, ← hcon, ← hcid2]
        rw [← hcc, hh1]
        exact List.mem_map_of_mem _ (by simp)
      rw [show RoomEvents.adjustPosition pe.1 position = position from by
        simp [RoomEvents.adjustPosition, hdiff]]
      exact Or.inr (Or.inr hB)

theorem remove_update_run_preserves {ids : List EventId} :
    ∀ {re : RoomEvents} {position : Position} {X : Event},
    WF re.chunks → (position, X) ∈ re.events →
    (∀ i ∈ ids, X.eventId ≠ some i) →
    ∃ rp, re.remove_events_and_update_insert_position ids position =
      some rp ∧ WF rp.1.chunks ∧ (rp.2, X) ∈ rp.1.events := by
  induction ids with
  | nil =>
    intro re position X hwf hX _
    exact ⟨(re, position), rfl, hwf, hX⟩
  | cons i rest ih =>
    intro re position X hwf hX hids
    obtain ⟨⟨re1, p1⟩, h1, hwf1, hX1⟩ :=
      removeAndUpdateStep_preserves hwf hX (hids i (by simp))
    obtain ⟨rp, h2, hwf2, hX2⟩ := ih hwf1 hX1
      (fun j hj => hids j (by simp [hj]))
    refine ⟨rp, ?_, hwf2, hX2⟩
    unfold RoomEvents.remove_events_and_update_insert_position
    rw [h1]
    exact h2

theorem removeAndUpdateStep_total {re : RoomEvents} {event_id : EventId}
    {position : Position} (hwf : WF re.chunks) :
    ∃ rp, re.removeAndUpdateStep event_id position = some rp ∧
      WF rp.1.chunks := by
  cases hf : re.revents.find? (matchesId event_id) with
  | none =>
    refine ⟨(re, position), ?_, hwf⟩
    unfold RoomEvents.removeAndUpdateStep
    rw [hf]
  | some pe =>
    obtain ⟨pre, c, post, es, hs, hc, hcid, hg, hstep⟩ :=
      @removeAndUpdateStep_found re event_id position pe hwf hf
    obtain ⟨hchunks, _, _⟩ := splitAtChunk_some hs
    exact ⟨_, hstep, WF_middle_replaced hwf hchunks _⟩

theorem remove_update_run_total {ids : List EventId} :
    ∀ {re : RoomEvents} {position : Position}, WF re.chunks →
    ∃ rp, re.remove_events_and_update_insert_position ids position =
      some rp ∧ WF rp.1.chunks := by
  induction ids with
  | nil => intro re position hwf; exact ⟨(re, position), rfl, hwf⟩
  | cons i rest ih =>
    intro re position hwf
    obtain ⟨⟨re1, p1⟩, h1, hwf1⟩ :=
      @removeAndUpdateStep_total re i position hwf
    obtain ⟨rp, h2, hwf2⟩ := @ih re1 p1 hwf1
    refine ⟨rp, ?_, hwf2⟩
    unfold RoomEvents.remove_events_and_update_insert_position
    rw [h1]
    exact h2

/-! ### `remove_events_by_id`: success and the blocked configuration -/

theorem removeByIdStep_found {re : RoomEvents} {event_id : EventId}
    {pe : Position × Event} (hwf : WF re.chunks)
    (hf : re.revents.find? (matchesId event_id) = some pe)
    (hbl : removalBlocked re.chunks pe.1 = false) :
    ∃ re', re.removeByIdStep event_id = some re' ∧ WF re'.chunks := by
  have hmem : (pe.1, pe.2) ∈ itemsWithPos re.chunks.chunks := by
    have hm := List.mem_of_find?_eq_some hf
    simpa [RoomEvents.revents] using hm
  obtain ⟨pre, c, post, es, hs, hc, hcid, hg⟩ := mem_itemsWithPos_split hwf hmem
  obtain ⟨hchunks, hcid2, hpre⟩ := splitAtChunk_some hs
  have hcdestr : c = ⟨c.id, .items es⟩ := by
    cases c with | mk i cc => simp_all
  have hlt : pe.1.index < es.length := (List.getElem?_eq_some.1 hg).1
  unfold RoomEvents.removeByIdStep
  rw [hf]
  dsimp only
  unfold LinkedChunk.remove_item_at
  rw [hs, hcdestr]
  dsimp only
  rw [if_pos hlt]
  rw [removalBlocked, hs, hcdestr] at hbl
  dsimp only [Chunk.items] at hbl
  by_cases hcond : es.eraseIdx pe.1.index = [] ∧
      (EmptyChunk.remove = EmptyChunk.remove) ∧ pre ≠ []
  · have hlen1 : es.length = 1 := by
      rcases List.eraseIdx_eq_nil.1 hcond.1 with hnil | hone
      · subst hnil; simp at hlt
      · exact hone.1
    have hgap : ((pre.getLast?).any Chunk.isGap &&
        (post.head?).any Chunk.isGap) = false := by
      rw [show (es.length == 1) = true from by simp [hlen1]] at hbl
      simpa using hbl
    rw [if_pos hcond, if_neg (by simp [hgap])]
    exact ⟨_, rfl, WF_middle_removed hwf hchunks⟩
  · rw [if_neg hcond]
    exact ⟨_, rfl, WF_middle_replaced hwf hchunks _⟩

theorem removeByIdStep_blocked {re : RoomEvents} {event_id : EventId}
    {pe : Position × Event} (hwf : WF re.chunks)
    (hf : re.revents.find? (matchesId event_id) = some pe)
    (hbl : removalBlocked re.chunks pe.1 = true) :
    re.removeByIdStep event_id = none := by
  have hmem : (pe.1, pe.2) ∈ itemsWithPos re.chunks.chunks := by
    have hm := List.mem_of_find?_eq_some hf
    simpa [RoomEvents.revents] using hm
  obtain ⟨pre, c, post, es, hs, hc, hcid, hg⟩ := mem_itemsWithPos_split hwf hmem
  have hcdestr : c = ⟨c.id, .items es⟩ := by
    cases c with | mk i cc => simp_all
  have hlt : pe.1.index < es.length := (List.getElem?_eq_some.1 hg).1
  rw [removalBlocked, hs, hcdestr] at hbl
  dsimp only [Chunk.items] at hbl
  simp only [Bool.and_eq_true, beq_iff_eq] at hbl
  obtain ⟨⟨hlen1, hgapl⟩, hgapr⟩ := hbl
  have hprene : pre ≠ [] := by
    intro hcon
    rw [hcon] at hgapl
    simp at hgapl
  have herase : es.eraseIdx pe.1.index = [] := by
    have : pe.1.index = 0 := by omega
    rcases es with _ | ⟨y, ys⟩
    · simp at hlt
    · simp only [List.length_cons] at hlen1
      have : ys = [] := List.eq_nil_of_length_eq_zero (by omega)
      subst this
      rw [show pe.1.index = 0 from by omega]
      rfl
  unfold RoomEvents.removeByIdStep
  rw [hf]
  dsimp only
  unfold LinkedChunk.remove_item_at
  rw [hs, hcdestr]
  dsimp only
  rw [if_pos hlt, if_pos ⟨herase, rfl, hprene⟩,
    if_pos (by simp [hgapl, hgapr])]

theorem remove_run_safe_total {ids : List EventId} :
    ∀ {re : RoomEvents}, WF re.chunks → removeRunSafe re ids = true →
    ∃ re', re.remove_events_by_id ids = some re' ∧ WF re'.chunks := by
  induction ids with
  | nil => intro re hwf _; exact ⟨re, rfl, hwf⟩
  | cons i rest ih =>
    intro re hwf hsafe
    unfold removeRunSafe at hsafe
    cases hf : re.revents.find? (matchesId i) with
    | none =>
      rw [hf] at hsafe
      have hstep : re.removeByIdStep i = some re := by
        unfold RoomEvents.removeByIdStep
        rw [hf]
      obtain ⟨re', h2, hwf2⟩ := ih hwf hsafe
      refine ⟨re', ?_, hwf2⟩
      unfold RoomEvents.remove_events_by_id
      rw [hstep]
      exact h2
    | some pe =>
      rw [hf] at hsafe
      simp only [Bool.and_eq_true,
        Bool.not_eq_eq_eq_not, Bool.not_true] at hsafe
      obtain ⟨hbl, hsafe⟩ := hsafe
      obtain ⟨re1, h1, hwf1⟩ := removeByIdStep_found hwf hf
        (by simpa using hbl)
      rw [h1] at hsafe
      simp only [Option.getD_some] at hsafe
      obtain ⟨re', h2, hwf2⟩ := ih hwf1 hsafe
      refine ⟨re', ?_, hwf2⟩
      unfold RoomEvents.remove_events_by_id
      rw [h1]
      exact h2

/-! ### Pushing one event and removing it again (C8) -/

theorem push_single_struct (lc : LinkedChunk) (hwf : WF lc) (e : Event) :
    ∃ (pre' : List Chunk) (cid' : Nat) (es' : List Event),
      (lc.push_items_back [e]).1.chunks =
        pre' ++ [⟨cid', .items (es' ++ [e])⟩] ∧
      (lc.push_items_back [e]).2 = [.append [e]] ∧
      (∀ c' ∈ pre', c'.id ≠ cid') ∧
      flatItems lc.chunks = flatItems pre' ++ es' ∧
      itemsWithPos lc.chunks =
        itemsWithPos pre' ++ itemsWithPosAux cid' 0 es' := by
  have hone : chunkify [e] = [[e]] :=
    chunkify_of_le (by simp) (by simp [DEFAULT_CHUNK_CAPACITY])
  have hbase : ∀ c' ∈ lc.chunks, c'.id ≠ lc.nextId := by
    intro c' hc' hcon
    have := hwf.2 c' hc'
    omega
  unfold LinkedChunk.push_items_back
  rw [if_neg (by simp : ¬ ([e] : List Event) = [])]
  cases hlast : lc.chunks.getLast? with
  | none =>
    dsimp only
    rw [hone]
    exact ⟨lc.chunks, lc.nextId, [], by simp [mkChunks], rfl, hbase,
      by simp, by simp [itemsWithPosAux]⟩
  | some c =>
    cases c with
    | mk cid cc =>
      cases cc with
      | gap g =>
        dsimp only
        rw [hone]
        exact ⟨lc.chunks, lc.nextId, [], by simp [mkChunks], rfl, hbase,
          by simp, by simp [itemsWithPosAux]⟩
      | items es =>
        dsimp only
        by_cases hcap : es.length < DEFAULT_CHUNK_CAPACITY
        · rw [if_pos hcap]
          have hfull : chunkify (es ++ [e]) = [es ++ [e]] :=
            chunkify_of_le (by simp)
              (by simp only [List.length_append, List.length_cons,
                List.length_nil]; omega)
          rw [hfull]
          dsimp only
          have hdl : lc.chunks.dropLast ++ [(⟨cid, .items es⟩ : Chunk)] =
              lc.chunks :=
            List.dropLast_append_getLast? _ hlast
          have hpre : ∀ c' ∈ lc.chunks.dropLast, c'.id ≠ cid := by
            have hnodup := hwf.1
            rw [← hdl] at hnodup
            simp only [List.map_append, List.map_cons,
              List.map_nil] at hnodup
            have hdisj := (List.nodup_append.1 hnodup).2.2
            intro c' hc' hcon
            exact hdisj (List.mem_map.2 ⟨c', hc', hcon⟩) (by simp)
          refine ⟨lc.chunks.dropLast, cid, es, by simp [mkChunks], rfl,
            hpre, ?_, ?_⟩
          · conv_lhs => rw [← hdl]
            simp [flatItems_append, flatItems, Chunk.items]
          · conv_lhs => rw [← hdl]
            rw [itemsWithPos_append]
            simp [itemsWithPos, Chunk.items]
        · rw [if_neg hcap]
          dsimp only
          rw [hone]
          exact ⟨lc.chunks, lc.nextId, [], by simp [mkChunks], rfl, hbase,
            by simp, by simp [itemsWithPosAux]⟩

theorem push_remove_roundtrip {re : RoomEvents} {e : Event}
    {event_id : EventId} (hwf : WF re.chunks)
    (hid : e.eventId = some event_id) :
    ∃ re2, (re.push_events [e]).remove_events_by_id [event_id] = some re2 ∧
      flatItems re2.chunks.chunks = flatItems re.chunks.chunks ∧
      re2.pending = re.pending ++
        [.append [e], .remove (flatItems re.chunks.chunks).length] := by
  obtain ⟨pre', cid', es', hch, hd, hpre, hflat, hipos⟩ :=
    push_single_struct re.chunks hwf e
  have hch1 : (re.push_events [e]).chunks.chunks =
      pre' ++ [⟨cid', .items (es' ++ [e])⟩] := hch
  have hpend1 : (re.push_events [e]).pending =
      re.pending ++ [.append [e]] := by
    unfold RoomEvents.push_events
    dsimp only
    rw [hd]
  have hitems1 : itemsWithPos (re.push_events [e]).chunks.chunks =
      itemsWithPos re.chunks.chunks ++
        [((⟨cid', es'.length⟩ : Position), e)] := by
    rw [hch1, itemsWithPos_append, hipos]
    simp only [itemsWithPos, Chunk.items, List.append_nil]
    rw [itemsWithPosAux_append]
    simp [itemsWithPosAux, List.append_assoc]
  have hfind : (re.push_events [e]).revents.find? (matchesId event_id) =
      some (⟨cid', es'.length⟩, e) := by
    unfold RoomEvents.revents
    rw [hitems1, List.reverse_append]
    simp only [List.reverse_cons, List.reverse_nil, List.nil_append,
      List.singleton_append]
    exact List.find?_cons_of_pos _ (by simp [matchesId, hid])
  have hsplit : splitAtChunk cid'
      (pre' ++ [(⟨cid', .items (es' ++ [e])⟩ : Chunk)]) =
      some (pre', ⟨cid', .items (es' ++ [e])⟩, []) :=
    splitAtChunk_of pre' ⟨cid', .items (es' ++ [e])⟩ [] hpre
  have herase : (es' ++ [e]).eraseIdx es'.length = es' := by
    rw [List.eraseIdx_append_of_length_le (Nat.le_refl _)]
    simp
  have hofflen : (flatItems pre').length + es'.length =
      (flatItems re.chunks.chunks).length := by
    rw [hflat]
    simp
  -- evaluate the removal step
  have hstep : (re.push_events [e]).removeByIdStep event_id = some
      (RoomEvents.mk
        (LinkedChunk.mk
          (if es' = [] ∧ pre' ≠ [] then pre'
           else pre' ++ [⟨cid', .items es'⟩])
          (re.push_events [e]).chunks.nextId)
        (re.pending ++ [.append [e],
          .remove (flatItems re.chunks.chunks).length])) := by
    unfold RoomEvents.removeByIdStep
    rw [hfind]
    dsimp only
    unfold LinkedChunk.remove_item_at
    rw [hch1]
    dsimp only
    rw [hsplit]
    dsimp only
    rw [if_pos (by simp : es'.length < (es' ++ [e]).length)]
    rw [herase]
    by_cases hcond : es' = [] ∧ (EmptyChunk.remove = EmptyChunk.remove) ∧
        pre' ≠ []
    · rw [if_pos hcond,
        if_neg (by simp : ¬ ((pre'.getLast?).any Chunk.isGap &&
          (([] : List Chunk).head?).any Chunk.isGap) = true)]
      rw [if_pos ⟨hcond.1, hcond.2.2⟩]
      rw [hpend1, hofflen]
      simp
    · rw [if_neg hcond]
      have hcond' : ¬ (es' = [] ∧ pre' ≠ []) := by
        intro hcon
        exact hcond ⟨hcon.1, rfl, hcon.2⟩
      rw [if_neg hcond']
      rw [hpend1, hofflen]
      simp
  refine ⟨RoomEvents.mk
    (LinkedChunk.mk
      (if es' = [] ∧ pre' ≠ [] then pre'
       else pre' ++ [⟨cid', .items es'⟩])
      (re.push_events [e]).chunks.nextId)
    (re.pending ++ [.append [e],
      .remove (flatItems re.chunks.chunks).length]), ?_, ?_, ?_⟩
  · unfold RoomEvents.remove_events_by_id
    rw [hstep]
    unfold RoomEvents.remove_events_by_id
    rfl
  · by_cases hcond : es' = [] ∧ pre' ≠ []
    · rw [if_pos hcond]
      rw [hflat, hcond.1]
      simp
    · rw [if_neg hcond]
      rw [hflat, flatItems_append]
      simp [flatItems, Chunk.items]
  · rfl

/-! ## The claims -/

/-- C1: For every sequence of mutations applied to a `RoomEvents` container
created empty, replaying the `VectorDiff` stream drained via
`updates_as_vector_diffs` onto an initially empty vector yields exactly the
same flat in-order item sequence as `events()` returns after those
mutations. Draining only returns and clears the buffer, so the full
drained stream of any run equals the buffer `pending` of the run without
intermediate drains. -/
theorem c1_replay_yields_events (muts : List Mutation) (re : RoomEvents)
    (h : applyMutations RoomEvents.new muts = some re) :
    applyDiffs [] re.pending = re.events.map (·.2) := by
  have hr := replays_applyMutations h replays_new
  unfold Replays at hr
  unfold RoomEvents.events
  rw [itemsWithPos_map_snd]
  exact hr

/-- Witness for C1 at a concrete mutation sequence. -/
theorem c1_replay_yields_events_witness :
    applyMutations RoomEvents.new witnessMutations = some witnessState ∧
    applyDiffs [] witnessState.pending = witnessState.events.map (·.2) :=
  ⟨by decide,
   c1_replay_yields_events witnessMutations witnessState (by decide)⟩

/-- C2: Every removal performed by
`remove_events_and_update_insert_position` adjusts the maintained position
exactly as the source does — unchanged when the removed event's chunk
identifier differs, decremented by one when the removed index is strictly
smaller in the same chunk, unchanged otherwise — and consequently a
position addressing an item whose id is not in the batch still addresses
that same item after the call. -/
theorem c2_remove_update_position (re : RoomEvents) (ids : List EventId)
    (position : Position) (X : Event) (x : EventId) (hwf : WF re.chunks)
    (hX : (position, X) ∈ re.events) (hXid : X.eventId = some x)
    (hx : x ∉ ids) :
    (∀ ep p, RoomEvents.adjustPosition ep p =
      if ep.chunk_identifier = p.chunk_identifier then
        (if ep.index < p.index then ⟨p.chunk_identifier, p.index - 1⟩
         else p)
      else p) ∧
    ∃ rp, re.remove_events_and_update_insert_position ids position =
      some rp ∧ (rp.2, X) ∈ rp.1.events := by
  refine ⟨fun ep p => rfl, ?_⟩
  obtain ⟨rp, h1, _, h3⟩ := remove_update_run_preserves hwf hX
    (fun i hi hcon => by
      rw [hXid] at hcon
      injection hcon with hcon
      exact hx (hcon ▸ hi))
  exact ⟨rp, h1, h3⟩

/-- Witness for C2: removing `$ev0` shifts a position addressing `$ev1`
from (0,1) to (0,0), still addressing `$ev1`. -/
theorem c2_remove_update_position_witness :
    WF sampleState.chunks ∧
    ((⟨0, 1⟩ : Position), sampleEvent 1) ∈ sampleState.events ∧
    (sampleEvent 1).eventId = some 1 ∧ (1 : EventId) ∉ [0] ∧
    ∃ rp, sampleState.remove_events_and_update_insert_position [0] ⟨0, 1⟩ =
      some rp ∧ (rp.2, sampleEvent 1) ∈ rp.1.events :=
  ⟨by decide, by decide, by decide, by decide,
   (c2_remove_update_position sampleState [0] ⟨0, 1⟩ (sampleEvent 1) 1
     (by decide) (by decide) (by decide) (by decide)).2⟩

/-- C3: `on_new_events` never fails (no error, and the `expect` on
`replace_item_at` is unreachable because the position comes from a scan of
the unmodified container) for every room version and every sequence of
input events; a redaction with a missing target id, one whose target is
not in the container, and one whose target is already redacted are each
ignored, leaving the container (chunks and diff buffer) unchanged. -/
theorem c3_on_new_events_never_fails (re : RoomEvents) (rv : RoomVersionId)
    (evs : List Event) (hwf : WF re.chunks) :
    (∃ re', re.on_new_events rv evs = some re') ∧
    (∀ e top content oc,
      e.raw.deser = some (.roomRedaction top content oc) →
      TimelineView.redacts (.roomRedaction top content oc) rv = none →
      re.maybe_apply_new_redaction rv e = some re) ∧
    (∀ e top content oc tid,
      e.raw.deser = some (.roomRedaction top content oc) →
      TimelineView.redacts (.roomRedaction top content oc) rv = some tid →
      re.events.find? (matchesId tid) = none →
      re.maybe_apply_new_redaction rv e = some re) ∧
    (∀ e top content oc tid pe v,
      e.raw.deser = some (.roomRedaction top content oc) →
      TimelineView.redacts (.roomRedaction top content oc) rv = some tid →
      re.events.find? (matchesId tid) = some pe →
      pe.2.raw.deser = some v → v.originalContentIsSome = false →
      re.maybe_apply_new_redaction rv e = some re) := by
  refine ⟨?_, ?_, ?_, ?_⟩
  · obtain ⟨re', h, _⟩ := @on_new_events_some evs re rv hwf
    exact ⟨re', h⟩
  · intro e top content oc hdes hred
    exact maybe_apply_no_target_id hdes hred
  · intro e top content oc tid hdes hred habs
    exact maybe_apply_target_missing hdes hred habs
  · intro e top content oc tid pe v hdes hred hf hv hoc
    exact maybe_apply_already_redacted hdes hred hf hv hoc

/-- Witness for C3 on a concrete container and redaction. -/
theorem c3_on_new_events_never_fails_witness :
    WF sampleState.chunks ∧
    ∃ re', sampleState.on_new_events ⟨true⟩ [sampleRedaction 0] =
      some re' :=
  ⟨by decide,
   (c3_on_new_events_never_fails sampleState ⟨true⟩ [sampleRedaction 0]
     (by decide)).1⟩

/-- C4: Applying the same redaction event twice through `on_new_events` is
idempotent: the second application performs no mutation, so the final
state (container and diff buffer, hence no second `Set` diff) equals the
state after the first application. -/
theorem c4_redaction_idempotent (re re1 : RoomEvents) (rv : RoomVersionId)
    (e : Event) (hwf : WF re.chunks)
    (h : re.on_new_events rv [e] = some re1) :
    re1.on_new_events rv [e] = some re1 := by
  have hsingle : ∀ (r : RoomEvents),
      r.on_new_events rv [e] = r.maybe_apply_new_redaction rv e := by
    intro r
    unfold RoomEvents.on_new_events
    cases hmm : r.maybe_apply_new_redaction rv e with
    | none => rfl
    | some r' => rfl
  rw [hsingle] at h
  rw [hsingle]
  exact maybe_apply_idem hwf h

/-- Witness for C4 with a concrete redaction applied twice. -/
theorem c4_redaction_idempotent_witness :
    WF c4Base.chunks ∧
    c4Base.on_new_events ⟨true⟩ [sampleRedaction 0] = some c4Once ∧
    c4Once.on_new_events ⟨true⟩ [sampleRedaction 0] = some c4Once :=
  ⟨by decide, by decide,
   c4_redaction_idempotent c4Base c4Once ⟨true⟩ (sampleRedaction 0)
     (by decide) (by decide)⟩

/-- C5: For every gap chunk identifier, `replace_gap_at` with an empty
event list is observably equivalent to `remove_gap_at`: the two functions
agree on the resulting container state, the returned next position, the
emitted diff stream, and errors; in particular no empty items-chunk is
created. -/
theorem c5_replace_empty_equals_remove (re : RoomEvents) (cid : Nat) :
    re.replace_gap_at [] cid = re.remove_gap_at cid := by
  unfold RoomEvents.replace_gap_at
  simp

/-- C6 counterexample: in the container `[ev0] gap [ev1] gap`, removing
`ev1` (the sole item of an items-chunk sitting between two gap chunks)
makes `remove_item_at` fail with `InvalidOperation` (spec §4.1
gap-adjacency), so the `expect` in `remove_events_by_id` panics: the
method does not "never fail". -/
theorem c6_counterexample :
    betweenGapsState.remove_events_by_id [1] = none := by decide

/-- C6 (amended): for every list of event ids, `remove_events_by_id`
scans the container from newest to oldest per id; an id that matches no
event is logged and skipped, leaving the container unchanged; and the
method never fails provided no removal it performs empties an items-chunk
lying strictly between two gap chunks (in that blocked configuration,
`remove_item_at` fails with `InvalidOperation` and the `expect` panics,
as the counterexample shows). -/
theorem c6_remove_events_by_id_amended (re : RoomEvents)
    (ids : List EventId) (hwf : WF re.chunks) :
    (∀ event_id, (∀ pe ∈ re.events, pe.2.eventId ≠ some event_id) →
      re.removeByIdStep event_id = some re) ∧
    (removeRunSafe re ids = true →
      ∃ re', re.remove_events_by_id ids = some re') := by
  refine ⟨fun event_id habs => removeByIdStep_skip habs, fun hsafe => ?_⟩
  obtain ⟨re', h, _⟩ := remove_run_safe_total hwf hsafe
  exact ⟨re', h⟩

/-- Witness for the amended C6: a removal run with one present and one
unknown id on a container with no blocked configuration. -/
theorem c6_remove_events_by_id_amended_witness :
    WF sampleState.chunks ∧ removeRunSafe sampleState [1, 99] = true ∧
    ∃ re', sampleState.remove_events_by_id [1, 99] = some re' :=
  ⟨by decide, by decide,
   (c6_remove_events_by_id_amended sampleState [1, 99] (by decide)).2
     (by decide)⟩

/-- C7: an event that is not a processable redaction — its `"type"` probe
is not the room-redaction type, its full deserialization is not a
room-redaction event, the deserialized redaction carries no target id, or
the target id matches no event in the container — leaves the container
state entirely unchanged (chunks, counter, and diff buffer). -/
theorem c7_non_redaction_frame (re : RoomEvents) (rv : RoomVersionId)
    (e : Event)
    (h : e.raw.typeIsRedaction = false ∨
      (∀ top content oc,
        e.raw.deser ≠ some (.roomRedaction top content oc)) ∨
      (∃ top content oc,
        e.raw.deser = some (.roomRedaction top content oc) ∧
        TimelineView.redacts (.roomRedaction top content oc) rv = none) ∨
      (∃ top content oc tid,
        e.raw.deser = some (.roomRedaction top content oc) ∧
        TimelineView.redacts (.roomRedaction top content oc) rv =
          some tid ∧
        ∀ pe ∈ re.events, pe.2.eventId ≠ some tid)) :
    re.maybe_apply_new_redaction rv e = some re := by
  rcases h with h | h | ⟨top, content, oc, h1, h2⟩ |
    ⟨top, content, oc, tid, h1, h2, h3⟩
  · exact maybe_apply_not_redaction_type h
  · exact maybe_apply_not_deser_redaction h
  · exact maybe_apply_no_target_id h1 h2
  · refine maybe_apply_target_missing h1 h2 ?_
    rw [List.find?_eq_none]
    intro pe hpe
    simp only [matchesId, beq_iff_eq]
    exact h3 pe hpe

/-- Witness for C7: a plain text event is ignored. -/
theorem c7_non_redaction_frame_witness :
    (sampleEvent 7).raw.typeIsRedaction = false ∧
    sampleState.maybe_apply_new_redaction ⟨true⟩ (sampleEvent 7) =
      some sampleState :=
  ⟨by decide,
   c7_non_redaction_frame sampleState ⟨true⟩ (sampleEvent 7)
     (Or.inl (by decide))⟩

/-- C8: pushing an event with an id and then removing that id leaves the
flat item sequence exactly as it was (the newest-to-oldest scan finds the
freshly pushed occurrence first), and the net emitted diff is the
`Append` of the event followed by the `Remove` of its flat index. -/
theorem c8_push_remove_identity (re : RoomEvents) (e : Event)
    (event_id : EventId) (hwf : WF re.chunks)
    (hid : e.eventId = some event_id) :
    ∃ re2, (re.push_events [e]).remove_events_by_id [event_id] =
      some re2 ∧
      re2.events.map (·.2) = re.events.map (·.2) ∧
      re2.pending = re.pending ++
        [.append [e], .remove re.events.length] := by
  obtain ⟨re2, h1, h2, h3⟩ := push_remove_roundtrip hwf hid
  have hlen : (flatItems re.chunks.chunks).length = re.events.length := by
    unfold RoomEvents.events
    rw [← itemsWithPos_map_snd]
    simp
  refine ⟨re2, h1, ?_, ?_⟩
  · unfold RoomEvents.events
    rw [itemsWithPos_map_snd, itemsWithPos_map_snd]
    exact h2
  · rw [h3, hlen]

/-- Witness for C8 on a concrete container. -/
theorem c8_push_remove_identity_witness :
    WF sampleState.chunks ∧ (sampleEvent 9).eventId = some 9 ∧
    ∃ re2, (sampleState.push_events [sampleEvent 9]).remove_events_by_id
      [9] = some re2 ∧
      re2.events.map (·.2) = sampleState.events.map (·.2) ∧
      re2.pending = sampleState.pending ++
        [.append [sampleEvent 9], .remove sampleState.events.length] :=
  ⟨by decide, by decide,
   c8_push_remove_identity sampleState (sampleEvent 9) 9 (by decide)
     (by decide)⟩

/-- C9: `remove_events_and_update_insert_position` tolerates unknown
event ids: an id that matches no event in the container is logged and
skipped, the container and the supplied position are left unchanged for
that id, and the method as a whole never fails. -/
theorem c9_remove_update_tolerates_unknown (re : RoomEvents)
    (ids : List EventId) (position : Position) (hwf : WF re.chunks) :
    (∀ event_id, (∀ pe ∈ re.events, pe.2.eventId ≠ some event_id) →
      re.removeAndUpdateStep event_id position = some (re, position)) ∧
    (∃ rp, re.remove_events_and_update_insert_position ids position =
      some rp) := by
  refine ⟨fun event_id habs => removeAndUpdateStep_skip habs, ?_⟩
  obtain ⟨rp, h, _⟩ := remove_update_run_total hwf
  exact ⟨rp, h⟩

/-- Witness for C9 with unknown ids in the batch. -/
theorem c9_remove_update_tolerates_unknown_witness :
    WF sampleState.chunks ∧
    ∃ rp, sampleState.remove_events_and_update_insert_position [42, 1]
      ⟨0, 0⟩ = some rp :=
  ⟨by decide,
   (c9_remove_update_tolerates_unknown sampleState [42, 1] ⟨0, 0⟩
     (by decide)).2⟩

/-- C10: when the redaction's target is found but the target's raw payload
fails to deserialize, the already-redacted guard is skipped rather than
aborting: the code still calls `apply_redaction` and, when it returns
`Some`, replaces the target in place. -/
theorem c10_undeserializable_target (re : RoomEvents)
    (rv : RoomVersionId) (e : Event) (top content : Option EventId)
    (oc : Bool) (tid : EventId) (pe : Position × Event) (R : RawValue)
    (hwf : WF re.chunks) (htype : e.raw.typeIsRedaction = true)
    (hdes : e.raw.deser = some (.roomRedaction top content oc))
    (hred : TimelineView.redacts (.roomRedaction top content oc) rv =
      some tid)
    (hf : re.events.find? (matchesId tid) = some pe)
    (hv : pe.2.raw.deser = none)
    (hap : apply_redaction pe.2.raw e.raw rv = some R) :
    ∃ r, re.chunks.replace_item_at pe.1 (pe.2.replace_raw R) = .ok r ∧
      re.maybe_apply_new_redaction rv e =
        some { chunks := r.1, pending := re.pending ++ r.2 } := by
  have hmem : (pe.1, pe.2) ∈ itemsWithPos re.chunks.chunks :=
    List.mem_of_find?_eq_some hf
  obtain ⟨pre, c, post, es, hs, hc, hcid, hg, hok⟩ :=
    replace_item_at_ok hwf hmem (pe.2.replace_raw R)
  refine ⟨_, hok, ?_⟩
  unfold RoomEvents.maybe_apply_new_redaction
  rw [if_pos htype]
  simp only [hdes, hred, hf, hv, hap, hok]
  simp

/-- Witness for C10: the target event does not deserialize, yet the
redaction replaces it. -/
theorem c10_undeserializable_target_witness :
    WF c4Base.chunks ∧ (sampleEvent 0).raw.deser = none ∧
    apply_redaction (sampleEvent 0).raw (sampleRedaction 0).raw ⟨true⟩ =
      some (RawValue.mk false none true) ∧
    ∃ r, c4Base.chunks.replace_item_at ⟨0, 0⟩
      ((sampleEvent 0).replace_raw (RawValue.mk false none true)) =
        .ok r ∧
      c4Base.maybe_apply_new_redaction ⟨true⟩ (sampleRedaction 0) =
        some { chunks := r.1, pending := c4Base.pending ++ r.2 } :=
  ⟨by decide, by decide, by decide,
   c10_undeserializable_target c4Base ⟨true⟩ (sampleRedaction 0) (some 0)
     (some 0) true 0 (⟨0, 0⟩, sampleEvent 0) (RawValue.mk false none true)
     (by decide) (by decide) (by decide) (by decide) (by decide)
     (by decide) (by decide)⟩

end EventCache
